import Mathlib

/-!
Verification of the document model and rendering engine of the `jx` terminal
JSON viewer, as a shallow embedding of its Rust sources:

* `src/json/token.rs`   — `Token` (object key or array index)
* `src/json/pointer.rs` — `Pointer` (remembered token path + cursor)
* `src/json/formatter.rs` — `Formatter` (tree → styled lines + fold index)
* `src/json/mod.rs`     — `Json` (navigation, folds, visible lines)
* `src/search.rs`       — `perform_search`
* `src/run.rs`          — selection output encodings

Machine integers (`usize`) are modelled as `Nat` (no arithmetic here comes
near overflow), Rust `String`s as Lean `String`s, with character-level
algorithms written over `List Char` (Rust byte offsets and char offsets
coincide on the single-byte text these algorithms are specified over;
`to_lowercase` is modelled as the per-character mapping `Char.toLower`).
`HashSet` is modelled as a duplicate-free `List` (insertion order kept),
`HashMap` as an association list with unique keys (`entry` API appends new
keys, updates existing ones in place).  Functions that panic in Rust on
states unreachable through the public API (`expect`, `unwrap`, index
panics) are given a harmless total branch at the panic site, marked by a
comment.
-/

/-- `Token` from `src/json/token.rs`: a tagged value, either a string key
(object member) or a non-negative integer index (array element). -/
inductive Token where
  | key (k : String)
  | index (i : Nat)
deriving DecidableEq

/-- `Token::as_key` — the key string, when the token is a key. -/
def Token.asKey : Token → Option String
  | .key k => some k
  | _ => none

/-- `Token::as_index` — the index, when the token is an index. -/
def Token.asIdx : Token → Option Nat
  | .index i => some i
  | _ => none

/-- `StyleClass` from `src/style.rs` (the style classification of a text
fragment). -/
inductive StyleClass where
  | whitespace
  | punct
  | keycls
  | string
  | number
  | bool
  | null
  | foldCount
deriving DecidableEq

/-- `StyledString` from `src/style.rs`: one styled text fragment. -/
structure StyledString where
  text : String
  cls : StyleClass
deriving DecidableEq

/-- `StyledLine` from `src/style.rs`: one rendered row — line number,
indentation, the pointer (path) of the node it was produced for, and the
ordered fragments. -/
structure StyledLine where
  line_number : Nat
  indent : Nat
  pointer : List Token
  elements : List StyledString
deriving DecidableEq

/-- `NodeType` from `src/json/formatter.rs` (kind recorded in the fold
index; `src/json/mod.rs` names the same three-way split `PointerValue`
with `Primitive` for `Value`). -/
inductive NodeType where
  | object
  | array
  | value
deriving DecidableEq

/-- `PointerData` from `src/json/formatter.rs`: fold-index entry — node
kind, child count, and inclusive `(first_line, last_line)` bounds. -/
structure PointerData where
  node_type : NodeType
  children : Nat
  bounds : Nat × Nat
deriving DecidableEq

/- The parsed JSON tree (`serde_json::Value`).  Objects keep their member
order (the claims' concrete documents have their keys already in the sorted
order `serde_json`'s map iterates in).  Numbers are carried as their
`serde_json` rendering, which is all the program ever uses of them. -/
mutual
inductive Value where
  | vobj (fields : Fields)
  | varr (elems : Elems)
  | vstr (s : String)
  | vnum (n : String)
  | vbool (b : Bool)
  | vnull
inductive Fields where
  | fnil
  | fcons (k : String) (v : Value) (rest : Fields)
inductive Elems where
  | enil
  | econs (v : Value) (rest : Elems)
end

/-- Number of members of an object. -/
def Fields.length : Fields → Nat
  | .fnil => 0
  | .fcons _ _ rest => 1 + rest.length

/-- Number of elements of an array. -/
def Elems.length : Elems → Nat
  | .enil => 0
  | .econs _ rest => 1 + rest.length

/-- The keys of an object, in iteration order. -/
def Fields.keys : Fields → List String
  | .fnil => []
  | .fcons k _ rest => k :: rest.keys

/-- `Map::get` — first member with the given key. -/
def Fields.lookup : Fields → String → Option Value
  | .fnil, _ => none
  | .fcons k v rest, q => if k = q then some v else rest.lookup q

/-- `Vec::get` — element at an index. -/
def Elems.get : Elems → Nat → Option Value
  | .enil, _ => none
  | .econs v _, 0 => some v
  | .econs _ rest, i + 1 => rest.get i

/-- `NodeType::from(&Value)` (`src/json/formatter.rs`). -/
def NodeType.ofValue : Value → NodeType
  | .vobj _ => .object
  | .varr _ => .array
  | _ => .value

/-- Child count of a node, as computed in `Formatter::update_map`:
object/array length, `0` for primitives. -/
def childCount : Value → Nat
  | .vobj fs => fs.length
  | .varr es => es.length
  | _ => 0

/-! ### Character-level utilities

`Pointer::escape_token` uses `str::replace` with single-character patterns,
`serde_json`'s `Value::pointer` uses `str::replace` with the two-character
patterns `~1` and `~0`; both replace non-overlapping occurrences left to
right. -/

/-- `str::replace` for a single-character pattern. -/
def replChar (tgt : Char) (sub : List Char) : List Char → List Char
  | [] => []
  | c :: r => (if c = tgt then sub else [c]) ++ replChar tgt sub r

/-- `str::replace("~1", "/")` — first stage of RFC 6901 unescaping. -/
def unescSlash : List Char → List Char
  | [] => []
  | [c] => [c]
  | c :: d :: r =>
    if c = '~' ∧ d = '1' then '/' :: unescSlash r
    else c :: unescSlash (d :: r)

/-- `str::replace("~0", "~")` — second stage of RFC 6901 unescaping. -/
def unescTilde : List Char → List Char
  | [] => []
  | [c] => [c]
  | c :: d :: r =>
    if c = '~' ∧ d = '0' then '~' :: unescTilde r
    else c :: unescTilde (d :: r)

/-- `str::split('/')`. -/
def splitSlash : List Char → List (List Char)
  | [] => [[]]
  | c :: r =>
    if c = '/' then [] :: splitSlash r
    else
      match splitSlash r with
      | s :: rest => (c :: s) :: rest
      | [] => [[c]]

/-- Numeric value of a digit string (the happy path of
`str::parse::<usize>` once the string is known to be all digits). -/
def natOfDigits (l : List Char) : Nat :=
  l.foldl (fun a c => a * 10 + (c.toNat - 48)) 0

/-- `serde_json`'s `parse_index`: rejects empty strings, a leading `+`,
and leading zeros, then parses decimal. -/
def parseIndex (l : List Char) : Option Nat :=
  match l with
  | [] => none
  | c :: rest =>
    if c = '+' then none
    else if c = '0' ∧ rest ≠ [] then none
    else if (c :: rest).all Char.isDigit then some (natOfDigits (c :: rest))
    else none

/-! ### JSON-Pointer rendering and resolution (`src/json/pointer.rs` and
`serde_json::Value::pointer`) -/

/-- `Pointer::escape_token`: keys get `~` → `~0` then `/` → `~1`, in that
order; indices render in decimal (`format!("{}", i)`). -/
def escapeTokenL : Token → List Char
  | .key k => replChar '/' ['~', '1'] (replChar '~' ['~', '0'] k.data)
  | .index i => (Nat.repr i).data

/-- The raw text of a token (what RFC 6901 unescaping should recover). -/
def tokenRawL : Token → List Char
  | .key k => k.data
  | .index i => (Nat.repr i).data

/-- RFC 6901 unescaping of one pointer segment: `~1` → `/` first, then
`~0` → `~` (the order `serde_json` applies). -/
def unescapeTokenL (l : List Char) : List Char :=
  unescTilde (unescSlash l)

/-- `Pointer::json_pointer`: fold the tokens into `/<escaped>` segments. -/
def jsonPointerL (tokens : List Token) : List Char :=
  tokens.foldl (fun acc t => acc ++ '/' :: escapeTokenL t) []

/-- One resolution step of `serde_json::Value::pointer`: objects are
indexed by the (unescaped) segment as a key, arrays by `parse_index`. -/
def resolveSeg (v : Value) (seg : List Char) : Option Value :=
  match v with
  | .vobj fs => fs.lookup (String.mk seg)
  | .varr es => (parseIndex seg).bind es.get
  | _ => none

/-- The `try_fold` of `serde_json::Value::pointer` over the unescaped
segments. -/
def walkSegs (v : Value) : List (List Char) → Option Value
  | [] => some v
  | seg :: rest =>
    match resolveSeg v (unescapeTokenL seg) with
    | none => none
    | some v' => walkSegs v' rest

/-- `serde_json::Value::pointer`: empty pointer is the value itself, a
pointer not starting with `/` resolves to nothing, otherwise split on `/`,
drop the leading empty segment, unescape and walk. -/
def valuePointer (v : Value) (ptr : List Char) : Option Value :=
  if ptr = [] then some v
  else if ptr.head? ≠ some '/' then none
  else walkSegs v ((splitSlash ptr).drop 1)

/-! ### `Pointer` (`src/json/pointer.rs`)

A remembered token sequence plus an optional cursor index.  The active
path is the prefix up to and including the cursor.  `src/json/mod.rs`
calls the cursor-retreat operation `back()`; in `src/json/pointer.rs` it
is the function `rewind` (cursor one step toward the root, remembered
tokens untouched), which is what `Pointer.rewind` models. -/

structure Pointer where
  tokens : List Token
  cursor : Option Nat
deriving DecidableEq

/-- `Pointer::new`. -/
def Pointer.new : Pointer := ⟨[], none⟩

/-- `Pointer::is_at_start`: no cursor means the root is selected. -/
def Pointer.isAtStart (p : Pointer) : Bool := p.cursor.isNone

/-- `Pointer::is_at_end`: the cursor sits on the last remembered token
(or there are no tokens at all). -/
def Pointer.isAtEnd (p : Pointer) : Bool :=
  match p.cursor with
  | none => p.tokens.isEmpty
  | some c => c + 1 ≥ p.tokens.length

/-- `Pointer::forward`: advance the cursor into the remembered sequence,
if possible. -/
def Pointer.forward (p : Pointer) : Pointer :=
  match p.cursor with
  | none => if ¬p.tokens.isEmpty then { p with cursor := some 0 } else p
  | some c => if c + 1 < p.tokens.length then { p with cursor := some (c + 1) } else p

/-- `Pointer::rewind` (also the behavior of the `back()` used by
`Json::go_out`): cursor one step toward the root. -/
def Pointer.rewind (p : Pointer) : Pointer :=
  match p.cursor with
  | none => p
  | some 0 => { p with cursor := none }
  | some (c + 1) => { p with cursor := some c }

/-- `Pointer::current_token`: the token at the cursor. -/
def Pointer.currentToken (p : Pointer) : Option Token :=
  match p.cursor with
  | none => none
  | some c => p.tokens.get? c

/-- `Pointer::tokens()`: the tokens up to and including the cursor
(`self.tokens[..=c]`; the invariant keeps `c` in range, `take` is the
total rendering of that slice). -/
def Pointer.tokensList (p : Pointer) : List Token :=
  match p.cursor with
  | none => []
  | some c => p.tokens.take (c + 1)

/-- `Pointer::parent_tokens()`: the tokens strictly before the cursor. -/
def Pointer.parentTokens (p : Pointer) : List Token :=
  match p.cursor with
  | none => []
  | some c => p.tokens.take c

/-- `Pointer::reset_cursor`: truncate the remembered sequence to the
cursor and overwrite the token there (sibling move; deeper memory is
dropped).  The source panics when the cursor is unset; that branch is
unreachable from the callers (`go_prev`/`go_next` only reach it with a
sibling in hand, which requires a set cursor) and is modelled as a
no-op. -/
def Pointer.resetCursor (p : Pointer) (t : Token) : Pointer :=
  match p.cursor with
  | none => p
  | some c => { p with tokens := (p.tokens.take (c + 1)).set c t }

/-- `Pointer::push`: append a remembered token. -/
def Pointer.push (p : Pointer) (t : Token) : Pointer :=
  { p with tokens := p.tokens ++ [t] }

/-- `Pointer::to_json_pointer`. -/
def Pointer.toJsonPointer (p : Pointer) : List Char :=
  jsonPointerL p.tokensList

/-! ### Formatter (`src/json/formatter.rs`)

One depth-first pass producing the styled lines and the fold index
(`PointerMap`).  The traversal state mirrors the `Formatter` struct:
the root value (for `update_map`'s lookup), current depth, current token
path, lines so far, and the map so far. -/

/-- `INDENT` from `src/style.rs`. -/
def INDENT : Nat := 4

/-- The `Formatter` struct's mutable state. -/
structure FmtState where
  value : Value
  depth : Nat
  tokens : List Token
  lines : List StyledLine
  pmap : List (List Token × PointerData)

/-- `HashMap::get` over the association-list model. -/
def lookupA : List (List Token × PointerData) → List Token → Option PointerData
  | [], _ => none
  | (k, d) :: rest, q => if k = q then some d else lookupA rest q

/-- The `and_modify` of `Formatter::update_map`: set the entry's upper
bound to `n` (the key occurs at most once; every occurrence is
rewritten). -/
def updateLast (m : List (List Token × PointerData)) (k : List Token) (n : Nat) :
    List (List Token × PointerData) :=
  match m with
  | [] => []
  | (k1, d1) :: rest =>
    if k1 = k then (k1, { d1 with bounds := (d1.bounds.1, n) }) :: updateLast rest k n
    else (k1, d1) :: updateLast rest k n

/-- `Formatter::update_map`: extend the entry for the current path to the
last line, or insert a fresh entry `(n, n)` carrying the node kind and
child count looked up from the root value at the current path's JSON
Pointer.  The source `expect`s that lookup to succeed; the impossible
branch is given a default entry. -/
def updateMap (st : FmtState) : FmtState :=
  let n := st.lines.length - 1
  match lookupA st.pmap st.tokens with
  | some _ => { st with pmap := updateLast st.pmap st.tokens n }
  | none =>
    let d :=
      match valuePointer st.value (jsonPointerL st.tokens) with
      | some v => PointerData.mk (NodeType.ofValue v) (childCount v) (n, n)
      | none => PointerData.mk NodeType.value 0 (n, n)
    { st with pmap := st.pmap ++ [(st.tokens, d)] }

/-- `self.lines.last_mut()` mutation: apply `f` to the last line (no-op on
an empty list, where the source would `expect`; all call sites guarantee a
line exists). -/
def modLast (f : StyledLine → StyledLine) : List StyledLine → List StyledLine
  | [] => []
  | [l] => [f l]
  | l :: rest => l :: modLast f rest

/-- Append fragments to the last line. -/
def pushLastLine (els : List StyledString) (st : FmtState) : FmtState :=
  { st with lines := modLast (fun l => { l with elements := l.elements ++ els }) st.lines }

/-- `Formatter::new_line`: push a fresh line tagged with the current path
at the current indentation, then `update_map`. -/
def newLine (st : FmtState) : FmtState :=
  updateMap { st with
    lines := st.lines ++ [⟨st.lines.length, st.depth * INDENT, st.tokens, []⟩] }

/-- `Formatter::append_line`: create a line if none exists, then push one
fragment onto the last line. -/
def appendLine (el : StyledString) (st : FmtState) : FmtState :=
  pushLastLine [el] (if st.lines.isEmpty then newLine st else st)

/-- `Formatter::extend_line`: create a line if none exists, then push
several fragments onto the last line. -/
def extendLine (els : List StyledString) (st : FmtState) : FmtState :=
  pushLastLine els (if st.lines.isEmpty then newLine st else st)

/-- `Formatter::push_token`. -/
def pushToken (t : Token) (st : FmtState) : FmtState :=
  { st with tokens := st.tokens ++ [t] }

/-- `self.tokens.pop()`. -/
def popToken (st : FmtState) : FmtState :=
  { st with tokens := st.tokens.dropLast }

/-- `Formatter::set_token`: overwrite the last path token (push when the
path is empty). -/
def setToken (t : Token) (st : FmtState) : FmtState :=
  if st.tokens.isEmpty then { st with tokens := st.tokens ++ [t] }
  else { st with tokens := st.tokens.dropLast ++ [t] }

/-- `format_punct` (`src/json/formatter.rs`). -/
def formatPunct (s : String) : StyledString := ⟨s, .punct⟩

/-- `Formatter::open_bracket`: bracket onto the current line, then one
level deeper. -/
def openBracket (sym : String) (st : FmtState) : FmtState :=
  let st := appendLine (formatPunct sym) st
  { st with depth := st.depth + 1 }

/-- `Formatter::close_bracket`: one level shallower, a fresh line, the
closing bracket onto it. -/
def closeBracket (sym : String) (st : FmtState) : FmtState :=
  let st := { st with depth := st.depth - 1 }
  appendLine (formatPunct sym) (newLine st)

/-- `format_key`: quote punctuation, the raw key text as a string
fragment, quote punctuation, then a `": "` punctuation fragment. -/
def formatKeyFrags (k : String) : List StyledString :=
  [formatPunct "\"", ⟨k, .string⟩, formatPunct "\"", formatPunct ": "]

/-- `Formatter::format_primitive`: numbers/booleans/null append one styled
fragment; strings extend the line with quote punctuation around the raw
text.  Composite values cannot reach this function (the source panics). -/
def formatPrimitive (v : Value) (st : FmtState) : FmtState :=
  match v with
  | .vnum n => appendLine ⟨n, .number⟩ st
  | .vbool b => appendLine ⟨if b then "true" else "false", .bool⟩ st
  | .vnull => appendLine ⟨"null", .null⟩ st
  | .vstr s => extendLine [formatPunct "\"", ⟨s, .string⟩, formatPunct "\""] st
  | _ => st

mutual

/-- `Formatter::format_value`: dispatch on the node kind.
`format_object` and `format_array` are inlined as the two composite
branches (keeping the recursion structural): opening bracket onto the
current line, the child loop, pop the child token when any child was
visited, closing bracket on a fresh line. -/
def formatValue (v : Value) (st : FmtState) : FmtState :=
  match v with
  | .vobj fs =>
    let st := openBracket "\x7b" st
    let st := formatFieldsAux fs 0 fs.length st
    let st := if fs.length = 0 then st else popToken st
    closeBracket "\x7d" st
  | .varr es =>
    let st := openBracket "[" st
    let st := formatElemsAux es 0 es.length st
    let st := if es.length = 0 then st else popToken st
    closeBracket "]" st
  | _ => formatPrimitive v st

/-- The member loop of `format_object`: first member pushes its token,
later members overwrite it; each member gets a fresh line, its key
fragments, its value's rendering, and a trailing comma between members
(`idx < len - 1`, written `idx + 1 < total` on `Nat`). -/
def formatFieldsAux (fs : Fields) (idx total : Nat) (st : FmtState) : FmtState :=
  match fs with
  | .fnil => st
  | .fcons k v rest =>
    let t := Token.key k
    let st := if idx = 0 then pushToken t st else setToken t st
    let st := newLine st
    let st := extendLine (formatKeyFrags k) st
    let st := formatValue v st
    let st := if idx + 1 < total then appendLine (formatPunct ",") st else st
    formatFieldsAux rest (idx + 1) total st

/-- The element loop of `format_array`: index tokens instead of keys, no
key fragments, otherwise as the member loop. -/
def formatElemsAux (es : Elems) (idx total : Nat) (st : FmtState) : FmtState :=
  match es with
  | .enil => st
  | .econs v rest =>
    let t := Token.index idx
    let st := if idx = 0 then pushToken t st else setToken t st
    let st := newLine st
    let st := formatValue v st
    let st := if idx + 1 < total then appendLine (formatPunct ",") st else st
    formatElemsAux rest (idx + 1) total st

end

/-- `Formatter::format`: run the traversal from the empty state. -/
def fmt (v : Value) : FmtState :=
  formatValue v ⟨v, 0, [], [], []⟩

/-! ### `Json` — the document (`src/json/mod.rs`) -/

/-- `measure_width`: widest line (indent plus fragment character
counts). -/
def measureWidth (ls : List StyledLine) : Nat :=
  ls.foldl (fun w s => w.max (s.indent + s.elements.foldl (fun l e => l + e.text.data.length) 0)) 0

/-- The `Json` struct: the pointer (user selection), the immutable tree,
the fold set, the `all_folded` flag, the formatted lines, the fold index,
and the measured width. -/
structure Json where
  pointer : Pointer
  value : Value
  folds : List (List Token)
  all_folded : Bool
  formatted : List StyledLine
  pointer_map : List (List Token × PointerData)
  width : Nat

/-- `impl From<Rc<Value>> for Json`: format once, start with no folds and
a fresh pointer. -/
def Json.fromValue (v : Value) : Json :=
  let st := fmt v
  { pointer := Pointer.new
    value := v
    folds := []
    all_folded := false
    formatted := st.lines
    pointer_map := st.pmap
    width := measureWidth st.lines }

/-- `Json::tokens`: the active path. -/
def Json.tokens (j : Json) : List Token := j.pointer.tokensList

/-- `Json::token`: the token at the cursor. -/
def Json.token (j : Json) : Option Token := j.pointer.currentToken

/-- `Json::value()`: resolve the active path's JSON Pointer against the
tree. -/
def Json.valueAt (j : Json) : Option Value :=
  valuePointer j.value j.pointer.toJsonPointer

/-- `Json::parent_value`: resolve the parent path. -/
def Json.parentValue (j : Json) : Option Value :=
  valuePointer j.value (jsonPointerL j.pointer.parentTokens)

/-- `HashSet::insert` over the list model (append when absent; the `Bool`
is "newly inserted"). -/
def insertFold (fs : List (List Token)) (p : List Token) : List (List Token) :=
  if p ∈ fs then fs else fs ++ [p]

/-- `HashSet::remove` over the list model. -/
def removeFold (fs : List (List Token)) (p : List Token) : List (List Token) :=
  fs.filter (· ≠ p)

/-- Composite kinds (`PointerValue::Object | PointerValue::Array`). -/
def NodeType.isComposite : NodeType → Bool
  | .object => true
  | .array => true
  | .value => false

/-- `Json::toggle_fold_all`: branch on the `all_folded` flag — when set,
clear the fold set and the flag; when clear, insert every composite-kind
path of the fold index into the fold set, rewind the pointer one level,
and set the flag.  Always reports `true`. -/
def Json.toggleFoldAll (j : Json) : Bool × Json :=
  if j.all_folded then
    (true, { j with folds := [], all_folded := false })
  else
    let folds := j.pointer_map.foldl
      (fun fs e => if e.2.node_type.isComposite then insertFold fs e.1 else fs) j.folds
    (true, { j with folds := folds, pointer := j.pointer.rewind, all_folded := true })

/-- `Json::first_child`: first key of an object, index 0 of a non-empty
array. -/
def Json.firstChild (j : Json) : Option Token :=
  match j.valueAt with
  | some (.vobj fs) => fs.keys.head?.map Token.key
  | some (.varr es) => if es.length ≠ 0 then some (Token.index 0) else none
  | _ => none

/-- `Iterator::position` over a key list. -/
def posOf (l : List String) (k : String) : Option Nat :=
  match l with
  | [] => none
  | x :: rest => if x = k then some 0 else (posOf rest k).map (· + 1)

/-- `Json::next_sibling`: nothing at the root; in an object, the key after
the current one (the source `expect`s the current key to be present — a
missing key, unreachable through navigation, is modelled as no sibling);
in an array, the next index when one exists. -/
def Json.nextSibling (j : Json) : Option Token :=
  if j.pointer.isAtStart then none
  else
    match j.parentValue with
    | some (.vobj fs) =>
      (j.token.bind Token.asKey).bind fun key =>
        match posOf fs.keys key with
        | some ki =>
          if ki + 1 < fs.keys.length then (fs.keys.get? (ki + 1)).map Token.key else none
        | none => none
    | some (.varr es) =>
      (j.token.bind Token.asIdx).bind fun i =>
        if i + 1 < es.length then some (Token.index (i + 1)) else none
    | _ => none

/-- `Json::prev_sibling`: mirror of `next_sibling` toward lower
positions. -/
def Json.prevSibling (j : Json) : Option Token :=
  if j.pointer.isAtStart then none
  else
    match j.parentValue with
    | some (.vobj fs) =>
      (j.token.bind Token.asKey).bind fun key =>
        match posOf fs.keys key with
        | some ki =>
          if 0 < ki then (fs.keys.get? (ki - 1)).map Token.key else none
        | none => none
    | some (.varr _) =>
      (j.token.bind Token.asIdx).bind fun i =>
        if 0 < i then some (Token.index (i - 1)) else none
    | _ => none

/-- `Json::go_in`: unfold the node being left; re-enter remembered tokens
when the cursor is not at the end, otherwise push the first child; unfold
the entered node; `false` when there is no child. -/
def Json.goIn (j : Json) : Bool × Json :=
  let j := { j with folds := removeFold j.folds j.tokens }
  if ¬j.pointer.isAtEnd then
    let p := j.pointer.forward
    (true, { j with pointer := p, folds := removeFold j.folds p.tokensList })
  else
    match j.firstChild with
    | some c =>
      let p := (j.pointer.push c).forward
      (true, { j with pointer := p, folds := removeFold j.folds p.tokensList })
    | none => (false, j)

/-- `Json::go_out`: `false` at the root, otherwise retreat the cursor
(`pointer.back()`, the rewind operation — remembered tokens kept). -/
def Json.goOut (j : Json) : Bool × Json :=
  if j.pointer.isAtStart then (false, j)
  else (true, { j with pointer := j.pointer.rewind })

/-- `cursorDepth`: recursion measure for `go_prev`/`go_next` — how many
`go_out` steps remain to the root. -/
def cursorDepth : Option Nat → Nat
  | none => 0
  | some c => c + 1

/-- Fuel-driven engine for `Json::go_next` (the recursion retreats the
cursor one level per step, so `cursorDepth + 1` fuel always suffices;
`Json.goNext_eq` below restates the source's recurrence verbatim). -/
def Json.goNextAux : Nat → Json → Bool × Json
  | 0, j => (false, j)
  | fuel + 1, j =>
    match j.nextSibling with
    | some s => (true, { j with pointer := j.pointer.resetCursor s })
    | none =>
      if j.pointer.isAtStart then (false, j)
      else Json.goNextAux fuel { j with pointer := j.pointer.rewind }

/-- `Json::go_next`: move to the next sibling when there is one, else
`go_out` and retry, else `false`. -/
def Json.goNext (j : Json) : Bool × Json :=
  Json.goNextAux (cursorDepth j.pointer.cursor + 1) j

/-- Fuel-driven engine for `Json::go_prev`. -/
def Json.goPrevAux : Nat → Json → Bool × Json
  | 0, j => (false, j)
  | fuel + 1, j =>
    match j.prevSibling with
    | some s => (true, { j with pointer := j.pointer.resetCursor s })
    | none =>
      if j.pointer.isAtStart then (false, j)
      else Json.goPrevAux fuel { j with pointer := j.pointer.rewind }

/-- `Json::go_prev`: move to the previous sibling when there is one, else
`go_out` and retry, else `false`. -/
def Json.goPrev (j : Json) : Bool × Json :=
  Json.goPrevAux (cursorDepth j.pointer.cursor + 1) j

/-- `Json::value_is_array_element`. -/
def Json.valueIsArrayElement (j : Json) : Bool :=
  match j.parentValue with
  | some (.varr _) => true
  | _ => false

/-- `Json::token_value_pair`: the selection as an optional key and the
value; array elements surface no key. -/
def Json.tokenValuePair (j : Json) : Option (Option String × Value) :=
  match j.valueAt with
  | none => none
  | some v =>
    if j.valueIsArrayElement then some (none, v)
    else
      match j.token with
      | none => some (none, v)
      | some t => some (t.asKey, v)

/-! ### Visible-line arithmetic (`Json::line_to_visible`,
`Json::visible_line_count`) -/

/-- Fuel-driven engine for the `while line_idx < target_line` loop of
`Json::line_to_visible`: one visible line per scanned absolute line; a
line whose path is folded and has a fold-index entry jumps past the
entry's last bound (the source's `data.bounds.1 + 1`, Rust tuples being
0-indexed, is `d.bounds.2 + 1` here).  In every terminating run of the source the index grows
each step, so `target` fuel suffices; exhausted fuel models the loop
never reaching `target` (which in Rust would spin forever). -/
def lineToVisibleAux (j : Json) (target : Nat) : Nat → Nat → Nat → Option Nat
  | 0, visible, line_idx => if line_idx < target then none else some visible
  | fuel + 1, visible, line_idx =>
    if line_idx < target then
      match j.formatted.get? line_idx with
      | none => none
      | some line =>
        if line.pointer ∈ j.folds then
          match lookupA j.pointer_map line.pointer with
          | some d => lineToVisibleAux j target fuel (visible + 1) (d.bounds.2 + 1)
          | none => lineToVisibleAux j target fuel (visible + 1) (line_idx + 1)
        else lineToVisibleAux j target fuel (visible + 1) (line_idx + 1)
    else some visible

/-- `Json::line_to_visible`. -/
def Json.lineToVisible (j : Json) (target : Nat) : Option Nat :=
  lineToVisibleAux j target target 0 0

/-- `Json::visible_line_count`:
`line_to_visible(formatted.len()).unwrap_or(0)`. -/
def Json.visibleLineCount (j : Json) : Nat :=
  (j.lineToVisible j.formatted.length).getD 0

/-! ### Search engine (`src/search.rs`) -/

/-- `SearchMatch`: line number, fragment index in the line, character
offset of the match start within the original fragment text, and the
highlighted character indices (the `HashSet` modelled as the list the
source inserts, in order). -/
structure SearchMatch where
  line_number : Nat
  element_index : Nat
  char_offset : Nat
  char_positions : List Nat
deriving DecidableEq

/-- `SearchResults` (freshly built: no current match).  The Rust field
`matches` is a reserved word in Lean and is written `matchList` here. -/
structure SearchResults where
  query : String
  matchList : List SearchMatch
  current_index : Option Nat
deriving DecidableEq

/-- `str::to_lowercase`, modelled per character. -/
def toLowerL (l : List Char) : List Char := l.map Char.toLower

/-- Drop every leading quote character. -/
def dropLeadingQuotes : List Char → List Char
  | '"' :: r => dropLeadingQuotes r
  | l => l

/-- `str::trim_matches('"')`: strip all leading and all trailing quote
characters. -/
def trimQuotes (l : List Char) : List Char :=
  (dropLeadingQuotes (dropLeadingQuotes l).reverse).reverse

/-- Fuel-driven engine for `str::find` from a start position: the first
`p ≥ start` where the query occurs (`s.length + 1 - start` fuel always
suffices, the position advances every step). -/
def findFromAux (s q : List Char) : Nat → Nat → Option Nat
  | 0, _ => none
  | fuel + 1, start =>
    if start + q.length ≤ s.length then
      if (s.drop start).take q.length = q then some start
      else findFromAux s q fuel (start + 1)
    else none

/-- `search_text_lower[start..].find(&query_lower)`, with the returned
position made absolute (the source adds `start` back). -/
def findFrom (s q : List Char) (start : Nat) : Option Nat :=
  findFromAux s q (s.length + 1 - start) start

/-- Fuel-driven engine for the `while let Some(pos) = ...find(...)` loop:
collect every hit, restarting one character past each hit's start. -/
def collectAux (s q : List Char) : Nat → Nat → List Nat
  | 0, _ => []
  | fuel + 1, start =>
    match findFrom s q start with
    | none => []
    | some p => p :: collectAux s q fuel (p + 1)

/-- All match start positions of `q` in `s` (possibly overlapping), in
increasing order — the search loop of `perform_search`. -/
def collectMatches (s q : List Char) (start : Nat) : List Nat :=
  collectAux s q (s.length + 1 - start) start

/-- The per-fragment body of `perform_search`: quote handling, trim,
lower-case, collect the hits, and build the match records
(`char_offset`/`char_positions` corrected by the leading-quote offset;
`match_end = match_start + query.chars().count()`). -/
def searchFrag (lineNo idx : Nat) (text : List Char) (qLower : List Char) (qLen : Nat) :
    List SearchMatch :=
  let quoteOffset := if text.head? = some '"' then 1 else 0
  let searchText := trimQuotes text
  let lower := toLowerL searchText
  (collectMatches lower qLower 0).map fun p =>
    { line_number := lineNo
      element_index := idx
      char_offset := p + quoteOffset
      char_positions := (List.range qLen).map (fun i => p + i + quoteOffset) }

/-- Skip punctuation and whitespace fragments. -/
def skippedStyle (c : StyleClass) : Bool :=
  match c with
  | .punct => true
  | .whitespace => true
  | _ => false

/-- One line of `perform_search`: every fragment, with its index, except
punctuation/whitespace. -/
def searchLine (qLower : List Char) (qLen : Nat) (line : StyledLine) : List SearchMatch :=
  line.elements.enum.flatMap fun e =>
    if skippedStyle e.2.cls then []
    else searchFrag line.line_number e.1 e.2.text.data qLower qLen

/-- `perform_search`: empty query yields no matches; otherwise scan every
line in order.  The fresh result set has no current match. -/
def performSearch (formatted : List StyledLine) (query : String) : SearchResults :=
  if query = "" then ⟨query, [], none⟩
  else
    let qLower := toLowerL query.data
    ⟨query, formatted.flatMap (searchLine qLower query.data.length), none⟩

/-! Declarative rendering of the search specification (§4.5 of the spec),
used to compare the loop against "every (possibly overlapping)
occurrence".  `searchSpec` differs from `performSearch` only in how the
occurrence positions of one fragment are described: as a filter of all
positions rather than a find loop. -/

/-- Spec wording: every start position at which the query occurs in the
candidate text. -/
def allOccs (s q : List Char) : List Nat :=
  (List.range s.length).filter fun p => decide ((s.drop p).take q.length = q)

/-- The per-fragment matches as the specification describes them (trim
the quotes, lower-case, take every occurrence position, record the
offset-corrected fields). -/
def specFrag (lineNo idx : Nat) (text : List Char) (qLower : List Char) (qLen : Nat) :
    List SearchMatch :=
  let quoteOffset := if text.head? = some '"' then 1 else 0
  let searchText := trimQuotes text
  let lower := toLowerL searchText
  (allOccs lower qLower).map fun p =>
    { line_number := lineNo
      element_index := idx
      char_offset := p + quoteOffset
      char_positions := (List.range qLen).map (fun i => p + i + quoteOffset) }

/-- The specification's search, whole-document: document order over
lines, fragments, and positions. -/
def searchSpec (formatted : List StyledLine) (query : String) : SearchResults :=
  if query = "" then ⟨query, [], none⟩
  else
    let qLower := toLowerL query.data
    ⟨query,
      formatted.flatMap (fun line =>
        line.elements.enum.flatMap fun e =>
          if skippedStyle e.2.cls then []
          else specFrag line.line_number e.1 e.2.text.data qLower query.data.length),
      none⟩

/-- Single-strip variant: the candidate text with at most one leading and
one trailing quote removed — the reading C6 states (the source instead
trims every quote). -/
def singleStrip (l : List Char) : List Char :=
  let l1 := match l with
    | '"' :: r => r
    | _ => l
  match l1.getLast? with
  | some '"' => l1.dropLast
  | _ => l1

/-- The claim's search with single-quote stripping, for the comparison in
C6's counterexample. -/
def searchSpecSingleStrip (formatted : List StyledLine) (query : String) : SearchResults :=
  if query = "" then ⟨query, [], none⟩
  else
    let qLower := toLowerL query.data
    ⟨query,
      formatted.flatMap (fun line =>
        line.elements.enum.flatMap fun e =>
          if skippedStyle e.2.cls then []
          else
            let text := e.2.text.data
            let quoteOffset := if text.head? = some '"' then 1 else 0
            (allOccs (toLowerL (singleStrip text)) qLower).map fun p =>
              { line_number := line.line_number
                element_index := e.1
                char_offset := p + quoteOffset
                char_positions := (List.range query.data.length).map (fun i => p + i + quoteOffset) }),
      none⟩

/-! ### Output serialization (`serde_json`'s `to_string` and
`to_string_pretty`, consumed by `src/run.rs`) -/

/-- A hex digit (lowercase, as `serde_json` writes `\u00XX`). -/
def hexDigit (d : Nat) : Char := Nat.digitChar d

/-- `serde_json`'s string escaping: `"` and `\` get a backslash, the
named control characters get their two-character escapes, other control
characters become `\u00XX`. -/
def escapeChar (c : Char) : List Char :=
  if c = '"' then ['\\', '"']
  else if c = '\\' then ['\\', '\\']
  else if c.toNat = 8 then ['\\', 'b']
  else if c.toNat = 9 then ['\\', 't']
  else if c.toNat = 10 then ['\\', 'n']
  else if c.toNat = 12 then ['\\', 'f']
  else if c.toNat = 13 then ['\\', 'r']
  else if c.toNat < 32 then ['\\', 'u', '0', '0', hexDigit (c.toNat / 16), hexDigit (c.toNat % 16)]
  else [c]

/-- JSON string escaping applied to a whole string. -/
def jsonEscape (s : String) : String :=
  String.mk ((s.data.map escapeChar).flatten)

/-- A quoted, escaped JSON string literal. -/
def quoteEscape (s : String) : String :=
  "\"" ++ jsonEscape s ++ "\""

mutual

/-- `serde_json::to_string` (`Value::to_string`): the compact one-line
rendering. -/
def compactValue : Value → String
  | .vobj fs => "\x7b" ++ compactFields fs ++ "\x7d"
  | .varr es => "[" ++ compactElems es ++ "]"
  | .vstr s => quoteEscape s
  | .vnum n => n
  | .vbool b => if b then "true" else "false"
  | .vnull => "null"

/-- Members of the compact rendering, comma separated. -/
def compactFields : Fields → String
  | .fnil => ""
  | .fcons k v .fnil => quoteEscape k ++ ":" ++ compactValue v
  | .fcons k v rest => quoteEscape k ++ ":" ++ compactValue v ++ "," ++ compactFields rest

/-- Elements of the compact rendering, comma separated. -/
def compactElems : Elems → String
  | .enil => ""
  | .econs v .enil => compactValue v
  | .econs v rest => compactValue v ++ "," ++ compactElems rest

end

/-- Two-space indentation at a pretty-printing depth. -/
def indentStr (d : Nat) : String :=
  String.mk (List.replicate (2 * d) ' ')

mutual

/-- `serde_json::to_string_pretty`: the standard multi-line rendering
with two-space indentation (empty containers stay on one line). -/
def prettyValue (d : Nat) : Value → String
  | .vobj .fnil => "\x7b\x7d"
  | .vobj fs => "\x7b\n" ++ prettyFields (d + 1) fs ++ "\n" ++ indentStr d ++ "\x7d"
  | .varr .enil => "[]"
  | .varr es => "[\n" ++ prettyElems (d + 1) es ++ "\n" ++ indentStr d ++ "]"
  | .vstr s => quoteEscape s
  | .vnum n => n
  | .vbool b => if b then "true" else "false"
  | .vnull => "null"

/-- Members of the pretty rendering, one per line. -/
def prettyFields (d : Nat) : Fields → String
  | .fnil => ""
  | .fcons k v .fnil => indentStr d ++ quoteEscape k ++ ": " ++ prettyValue d v
  | .fcons k v rest =>
    indentStr d ++ quoteEscape k ++ ": " ++ prettyValue d v ++ ",\n" ++ prettyFields d rest

/-- Elements of the pretty rendering, one per line. -/
def prettyElems (d : Nat) : Elems → String
  | .enil => ""
  | .econs v .enil => indentStr d ++ prettyValue d v
  | .econs v rest => indentStr d ++ prettyValue d v ++ ",\n" ++ prettyElems d rest

end

/-! ### Selection output (`src/run.rs`) -/

/-- `selection` (`src/run.rs`): `"<key>": <value>` when a key is present
(the key is interpolated raw), otherwise just the compact value. -/
def selection (key : Option String) (v : Value) : String :=
  match key with
  | some k => "\"" ++ k ++ "\": " ++ compactValue v
  | none => compactValue v

/-- `selection_pretty` (`src/run.rs`): as `selection` but with the value
pretty-printed. -/
def selectionPretty (key : Option String) (v : Value) : String :=
  match key with
  | some k => "\"" ++ k ++ "\": " ++ prettyValue 0 v
  | none => prettyValue 0 v

/-- The `OutputSelectionPretty` arm of the event loop. -/
def outputSelectionPretty (j : Json) : Option String :=
  j.tokenValuePair.map fun kv => selectionPretty kv.1 kv.2

/-- The `OutputValuePretty` arm of the event loop.  The source emits
`value.to_string()` — the compact rendering — despite the action's name
and its help entry ("Output pretty selection/value"). -/
def outputValuePretty (j : Json) : Option String :=
  j.valueAt.map compactValue

/-- The `OutputSelectionRaw` arm of the event loop. -/
def outputSelectionRaw (j : Json) : Option String :=
  j.tokenValuePair.map fun kv => selection kv.1 kv.2

/-- The `OutputValueRaw` arm of the event loop. -/
def outputValueRaw (j : Json) : Option String :=
  j.valueAt.map compactValue

/-! ## Lemmas on the escaping characters (claim C4) -/

/-- `Nat.digitChar` never emits `~` or `/`. -/
theorem digitChar_safe (m : Nat) : Nat.digitChar m ≠ '~' ∧ Nat.digitChar m ≠ '/' := by
  rcases m with _|_|_|_|_|_|_|_|_|_|_|_|_|_|_|_|n
  case succ =>
    unfold Nat.digitChar
    repeat rw [if_neg (by omega)]
    decide
  all_goals decide

/-- Every character of `Nat.toDigitsCore` output is a digit character or
comes from the accumulator. -/
theorem toDigitsCore_safe (b : Nat) :
    ∀ fuel n ds, (∀ c ∈ ds, c ≠ '~' ∧ c ≠ '/') →
      ∀ c ∈ Nat.toDigitsCore b fuel n ds, c ≠ '~' ∧ c ≠ '/' := by
  intro fuel
  induction fuel with
  | zero => intro n ds hds c hc; exact hds c hc
  | succ fuel ih =>
    intro n ds hds c hc
    rw [Nat.toDigitsCore] at hc
    split at hc
    · rcases List.mem_cons.mp hc with h | h
      · subst h; exact digitChar_safe _
      · exact hds c h
    · refine ih _ _ ?_ c hc
      intro c' hc'
      rcases List.mem_cons.mp hc' with h | h
      · subst h; exact digitChar_safe _
      · exact hds c' h

/-- The decimal rendering of an index contains neither `~` nor `/`. -/
theorem repr_safe (i : Nat) : ∀ c ∈ (Nat.repr i).data, c ≠ '~' ∧ c ≠ '/' := by
  intro c hc
  have : (Nat.repr i).data = Nat.toDigits 10 i := rfl
  rw [this, Nat.toDigits] at hc
  exact toDigitsCore_safe 10 _ _ _ (by intro c h; cases h) c hc

/-- `unescSlash` leaves a cons alone unless it starts the `~1` pattern. -/
theorem unescSlash_cons_ne (c : Char) (l : List Char)
    (h : ¬(c = '~' ∧ l.head? = some '1')) :
    unescSlash (c :: l) = c :: unescSlash l := by
  cases l with
  | nil => rfl
  | cons d r =>
    rw [unescSlash]
    rw [if_neg]
    intro ⟨h1, h2⟩
    exact h ⟨h1, by simp [h2]⟩

/-- `unescTilde` leaves a cons alone unless it starts the `~0` pattern. -/
theorem unescTilde_cons_ne (c : Char) (l : List Char)
    (h : ¬(c = '~' ∧ l.head? = some '0')) :
    unescTilde (c :: l) = c :: unescTilde l := by
  cases l with
  | nil => rfl
  | cons d r =>
    rw [unescTilde]
    rw [if_neg]
    intro ⟨h1, h2⟩
    exact h ⟨h1, by simp [h2]⟩

/-- A tilde-free string passes through `unescSlash` unchanged. -/
theorem unescSlash_of_no_tilde : ∀ l : List Char, '~' ∉ l → unescSlash l = l := by
  intro l
  induction l with
  | nil => intro _; rfl
  | cons c r ih =>
    intro h
    have hc : c ≠ '~' := fun hh => h (hh ▸ List.mem_cons_self c r)
    rw [unescSlash_cons_ne c r (fun hp => hc hp.1), ih (fun hm => h (List.mem_cons_of_mem c hm))]

/-- A tilde-free string passes through `unescTilde` unchanged. -/
theorem unescTilde_of_no_tilde : ∀ l : List Char, '~' ∉ l → unescTilde l = l := by
  intro l
  induction l with
  | nil => intro _; rfl
  | cons c r ih =>
    intro h
    have hc : c ≠ '~' := fun hh => h (hh ▸ List.mem_cons_self c r)
    rw [unescTilde_cons_ne c r (fun hp => hc hp.1), ih (fun hm => h (List.mem_cons_of_mem c hm))]

/-- "No `~1` substring": the invariant the first escaping stage
establishes, which makes the two unescaping stages commute past each
other. -/
def noT1 : List Char → Bool
  | [] => true
  | [_] => true
  | c :: d :: r => if c = '~' ∧ d = '1' then false else noT1 (d :: r)

/-- `noT1` only inspects adjacent pairs. -/
theorem noT1_cons_ne (a : Char) (z : List Char) (h : ¬(a = '~' ∧ z.head? = some '1')) :
    noT1 (a :: z) = noT1 z := by
  cases z with
  | nil => rfl
  | cons d r =>
    rw [noT1, if_neg]
    intro ⟨h1, h2⟩
    exact h ⟨h1, by simp [h2]⟩

/-- `noT1` passes to the tail. -/
theorem noT1_tail (a : Char) (z : List Char) (h : noT1 (a :: z) = true) : noT1 z = true := by
  cases z with
  | nil => rfl
  | cons d r =>
    rw [noT1] at h
    split at h
    · cases h
    · exact h

/-- The first escaping stage (`~` → `~0`) leaves no `~1` pair behind. -/
theorem noT1_replTilde : ∀ k : List Char, noT1 (replChar '~' ['~', '0'] k) = true := by
  intro k
  induction k with
  | nil => rfl
  | cons c r ih =>
    rw [replChar]
    by_cases hc : c = '~'
    · subst hc
      simp only [if_pos rfl]
      show noT1 ('~' :: '0' :: replChar '~' ['~', '0'] r) = true
      rw [noT1_cons_ne '~' _ (by intro ⟨_, h2⟩; simp at h2), noT1_cons_ne '0' _ (by intro ⟨h1, _⟩; cases h1)]
      exact ih
    · simp only [if_neg hc, List.singleton_append]
      rw [noT1_cons_ne c _ (fun hp => hc hp.1)]
      exact ih

/-- The head of the second escaping stage's output is never `'1'` after a
tilde allowed by `noT1`. -/
theorem unescSlash_replSlash : ∀ x : List Char, noT1 x = true →
    unescSlash (replChar '/' ['~', '1'] x) = x := by
  intro x
  induction x with
  | nil => intro _; rfl
  | cons c r ih =>
    intro h
    rw [replChar]
    by_cases hc : c = '/'
    · subst hc
      simp only [if_pos rfl]
      show unescSlash ('~' :: '1' :: replChar '/' ['~', '1'] r) = '/' :: r
      rw [unescSlash]
      rw [if_pos ⟨rfl, rfl⟩, ih (noT1_tail _ _ h)]
    · simp only [if_neg hc, List.singleton_append]
      rw [unescSlash_cons_ne c _ ?_, ih (noT1_tail _ _ h)]
      intro ⟨h1, h2⟩
      subst h1
      cases r with
      | nil => simp [replChar] at h2
      | cons d r' =>
        rw [noT1] at h
        split at h
        · cases h
        · rename_i hne
          rw [replChar] at h2
          by_cases hd : d = '/'
          · subst hd; simp at h2
          · simp only [if_neg hd, List.singleton_append, List.head?] at h2
            exact hne ⟨rfl, by injection h2⟩

/-- The second unescaping stage undoes the first escaping stage. -/
theorem unescTilde_replTilde : ∀ k : List Char,
    unescTilde (replChar '~' ['~', '0'] k) = k := by
  intro k
  induction k with
  | nil => rfl
  | cons c r ih =>
    rw [replChar]
    by_cases hc : c = '~'
    · subst hc
      simp only [if_pos rfl]
      show unescTilde ('~' :: '0' :: replChar '~' ['~', '0'] r) = '~' :: r
      rw [unescTilde, if_pos ⟨rfl, rfl⟩, ih]
    · simp only [if_neg hc, List.singleton_append]
      rw [unescTilde_cons_ne c _ (fun hp => hc hp.1), ih]

/-- Per-token round trip: RFC 6901 unescaping of the escaped token gives
back the raw token text. -/
theorem unescape_escape_token (t : Token) :
    unescapeTokenL (escapeTokenL t) = tokenRawL t := by
  cases t with
  | key k =>
    show unescTilde (unescSlash (replChar '/' ['~', '1'] (replChar '~' ['~', '0'] k.data))) = k.data
    rw [unescSlash_replSlash _ (noT1_replTilde k.data), unescTilde_replTilde]
  | index i =>
    show unescTilde (unescSlash (Nat.repr i).data) = (Nat.repr i).data
    have hnt : '~' ∉ (Nat.repr i).data := fun hm => (repr_safe i '~' hm).1 rfl
    rw [unescSlash_of_no_tilde _ hnt, unescTilde_of_no_tilde _ hnt]

/-- The fold of `Pointer::json_pointer` is the flattened list of
`/<escaped token>` segments. -/
theorem jsonPointerL_eq_flatten : ∀ (p : List Token) (acc : List Char),
    p.foldl (fun acc t => acc ++ '/' :: escapeTokenL t) acc =
      acc ++ (p.map fun t => '/' :: escapeTokenL t).flatten := by
  intro p
  induction p with
  | nil => intro acc; simp
  | cons t rest ih =>
    intro acc
    simp only [List.foldl_cons, List.map_cons, List.flatten_cons]
    rw [ih]
    simp

/-- C4: the JSON-Pointer rendering escapes each key with `~` → `~0` then
`/` → `~1` in that order, renders indices in decimal, prefixes every
token with `/`, and unescaping (RFC 6901: `~1` → `/` then `~0` → `~`)
recovers every raw token — keys containing `/` and `~` included. -/
theorem c4_pointer_round_trip (p : List Token) :
    jsonPointerL p = (p.map fun t => '/' :: escapeTokenL t).flatten ∧
    p.map (fun t => unescapeTokenL (escapeTokenL t)) = p.map tokenRawL := by
  constructor
  · exact jsonPointerL_eq_flatten p []
  · exact List.map_congr_left fun t _ => unescape_escape_token t

/-! ## Concrete documents used by the claims -/

/-- `{"a": {"b": 0}}`. -/
def docNested : Value := .vobj (.fcons "a" (.vobj (.fcons "b" (.vnum "0") .fnil)) .fnil)

/-- `{"a": [0, 1], "b": 2}`. -/
def docSib : Value :=
  .vobj (.fcons "a" (.varr (.econs (.vnum "0") (.econs (.vnum "1") .enil)))
    (.fcons "b" (.vnum "2") .fnil))

/-- `{"a": [0, {"x": 1, "y": 2}]}`. -/
def docMem : Value :=
  .vobj (.fcons "a" (.varr (.econs (.vnum "0")
    (.econs (.vobj (.fcons "x" (.vnum "1") (.fcons "y" (.vnum "2") .fnil))) .enil))) .fnil)

/-- `{"k": [1, 2, 3]}`. -/
def docK : Value :=
  .vobj (.fcons "k" (.varr (.econs (.vnum "1") (.econs (.vnum "2") (.econs (.vnum "3") .enil)))) .fnil)

/-- `{"a": "aaa"}`. -/
def docAAA : Value := .vobj (.fcons "a" (.vstr "aaa") .fnil)

/-- `{"a": 0}`. -/
def docPrim : Value := .vobj (.fcons "a" (.vnum "0") .fnil)

/-! ## Pointer and navigation lemmas (claims C1 and C5) -/

/-- `rewind` (the `back()` of `go_out`) never touches the remembered
tokens. -/
theorem rewind_tokens (p : Pointer) : (Pointer.rewind p).tokens = p.tokens := by
  cases hp : p.cursor with
  | none => simp [Pointer.rewind, hp]
  | some c => cases c <;> simp [Pointer.rewind, hp]

/-- The cursor depth after a rewind from a set cursor. -/
theorem cursorDepth_rewind (p : Pointer) (c : Nat) (h : p.cursor = some c) :
    cursorDepth (Pointer.rewind p).cursor = c := by
  cases c <;> simp [Pointer.rewind, h, cursorDepth]

/-- `Pointer.isAtStart` is exactly "the cursor is unset". -/
theorem isAtStart_iff (p : Pointer) : p.isAtStart = true ↔ p.cursor = none := by
  cases hp : p.cursor <;> simp [Pointer.isAtStart, hp]

/-- `goNextAux` does not depend on the fuel once the fuel exceeds the
cursor depth. -/
theorem goNextAux_congr : ∀ f1 f2 (j : Json),
    cursorDepth j.pointer.cursor < f1 → cursorDepth j.pointer.cursor < f2 →
    Json.goNextAux f1 j = Json.goNextAux f2 j := by
  intro f1
  induction f1 with
  | zero => intro f2 j h1 _; omega
  | succ f1 ih =>
    intro f2 j h1 h2
    cases f2 with
    | zero => omega
    | succ f2 =>
      simp only [Json.goNextAux]
      cases j.nextSibling with
      | some s => rfl
      | none =>
        by_cases hs : j.pointer.isAtStart
        · simp [hs]
        · simp only [hs, Bool.false_eq_true, if_false]
          have hc : ∃ c, j.pointer.cursor = some c := by
            cases hcc : j.pointer.cursor with
            | none => exact absurd ((isAtStart_iff _).mpr hcc) hs
            | some c => exact ⟨c, rfl⟩
          obtain ⟨c, hc⟩ := hc
          have hd : cursorDepth j.pointer.cursor = c + 1 := by simp [cursorDepth, hc]
          have hr : cursorDepth (Pointer.rewind j.pointer).cursor = c := cursorDepth_rewind _ _ hc
          refine ih f2 _ ?_ ?_
          · show cursorDepth (Pointer.rewind j.pointer).cursor < f1
            rw [hr]; omega
          · show cursorDepth (Pointer.rewind j.pointer).cursor < f2
            rw [hr]; omega

/-- `goPrevAux` does not depend on the fuel once the fuel exceeds the
cursor depth. -/
theorem goPrevAux_congr : ∀ f1 f2 (j : Json),
    cursorDepth j.pointer.cursor < f1 → cursorDepth j.pointer.cursor < f2 →
    Json.goPrevAux f1 j = Json.goPrevAux f2 j := by
  intro f1
  induction f1 with
  | zero => intro f2 j h1 _; omega
  | succ f1 ih =>
    intro f2 j h1 h2
    cases f2 with
    | zero => omega
    | succ f2 =>
      simp only [Json.goPrevAux]
      cases j.prevSibling with
      | some s => rfl
      | none =>
        by_cases hs : j.pointer.isAtStart
        · simp [hs]
        · simp only [hs, Bool.false_eq_true, if_false]
          have hc : ∃ c, j.pointer.cursor = some c := by
            cases hcc : j.pointer.cursor with
            | none => exact absurd ((isAtStart_iff _).mpr hcc) hs
            | some c => exact ⟨c, rfl⟩
          obtain ⟨c, hc⟩ := hc
          have hd : cursorDepth j.pointer.cursor = c + 1 := by simp [cursorDepth, hc]
          have hr : cursorDepth (Pointer.rewind j.pointer).cursor = c := cursorDepth_rewind _ _ hc
          refine ih f2 _ ?_ ?_
          · show cursorDepth (Pointer.rewind j.pointer).cursor < f1
            rw [hr]; omega
          · show cursorDepth (Pointer.rewind j.pointer).cursor < f2
            rw [hr]; omega

/-- `Json.goNext` satisfies the recurrence of `Json::go_next` verbatim:
move to the next sibling when there is one, otherwise `go_out` (fail at
the root) and retry. -/
theorem goNext_eq (j : Json) :
    Json.goNext j =
      match j.nextSibling with
      | some s => (true, { j with pointer := j.pointer.resetCursor s })
      | none =>
        if j.pointer.isAtStart then (false, j)
        else Json.goNext { j with pointer := j.pointer.rewind } := by
  show Json.goNextAux (cursorDepth j.pointer.cursor + 1) j = _
  rw [Json.goNextAux]
  cases j.nextSibling with
  | some s => rfl
  | none =>
    by_cases hs : j.pointer.isAtStart
    · simp [hs]
    · simp only [hs, Bool.false_eq_true, if_false]
      have hc : ∃ c, j.pointer.cursor = some c := by
        cases hcc : j.pointer.cursor with
        | none => exact absurd ((isAtStart_iff _).mpr hcc) hs
        | some c => exact ⟨c, rfl⟩
      obtain ⟨c, hc⟩ := hc
      have hd : cursorDepth j.pointer.cursor = c + 1 := by simp [cursorDepth, hc]
      have hr : cursorDepth (Pointer.rewind j.pointer).cursor = c := cursorDepth_rewind _ _ hc
      refine goNextAux_congr _ _ _ ?_ ?_
      · show cursorDepth (Pointer.rewind j.pointer).cursor < cursorDepth j.pointer.cursor
        rw [hr, hd]; omega
      · show cursorDepth (Pointer.rewind j.pointer).cursor <
          cursorDepth (Pointer.rewind j.pointer).cursor + 1
        omega

/-- `Json.goPrev` satisfies the recurrence of `Json::go_prev` verbatim. -/
theorem goPrev_eq (j : Json) :
    Json.goPrev j =
      match j.prevSibling with
      | some s => (true, { j with pointer := j.pointer.resetCursor s })
      | none =>
        if j.pointer.isAtStart then (false, j)
        else Json.goPrev { j with pointer := j.pointer.rewind } := by
  show Json.goPrevAux (cursorDepth j.pointer.cursor + 1) j = _
  rw [Json.goPrevAux]
  cases j.prevSibling with
  | some s => rfl
  | none =>
    by_cases hs : j.pointer.isAtStart
    · simp [hs]
    · simp only [hs, Bool.false_eq_true, if_false]
      have hc : ∃ c, j.pointer.cursor = some c := by
        cases hcc : j.pointer.cursor with
        | none => exact absurd ((isAtStart_iff _).mpr hcc) hs
        | some c => exact ⟨c, rfl⟩
      obtain ⟨c, hc⟩ := hc
      have hd : cursorDepth j.pointer.cursor = c + 1 := by simp [cursorDepth, hc]
      have hr : cursorDepth (Pointer.rewind j.pointer).cursor = c := cursorDepth_rewind _ _ hc
      refine goPrevAux_congr _ _ _ ?_ ?_
      · show cursorDepth (Pointer.rewind j.pointer).cursor < cursorDepth j.pointer.cursor
        rw [hr, hd]; omega
      · show cursorDepth (Pointer.rewind j.pointer).cursor <
          cursorDepth (Pointer.rewind j.pointer).cursor + 1
        omega

/-- After `go_in` → `go_in` → `go_next` on `{"a": [0, 1], "b": 2}` the
active node is `a/1`, the last element of its parent array. -/
def c1AtLastSib : Json :=
  ((((Json.fromValue docSib).goIn.2).goIn.2).goNext.2)

/-- C1, counterexample: at `a/1` — the last sibling of its parent (no
next sibling exists) — `go_next` does not return `false`: it ascends,
retries at the ancestor, returns `true` and moves the selection to `b`.
Also, on the document `{"a": 0}`, `go_prev` at `a` (the first sibling)
does return `false` but rewinds the cursor to the root on the way, so the
active path is changed from `["a"]` to `[]` by the failing call. -/
theorem c1_counterexample :
    (Json.nextSibling c1AtLastSib = none ∧
      (Json.goNext c1AtLastSib).1 = true ∧
      (Json.goNext c1AtLastSib).2.tokens = [Token.key "b"]) ∧
    (let jA := (Json.fromValue docPrim).goIn.2
     jA.tokens = [Token.key "a"] ∧
      Json.prevSibling jA = none ∧
      (Json.goPrev jA).1 = false ∧
      (Json.goPrev jA).2.tokens = []) := by
  constructor
  · refine ⟨by decide, by decide, by decide⟩
  · refine ⟨by decide, by decide, by decide, by decide⟩

/-- C1, amended, `go_next` half: whenever `go_next` returns `false`, the
cursor has been rewound to the root — the resulting state is the original
one with the cursor unset and everything else (remembered tokens, folds,
tree, lines, fold index) unchanged. -/
theorem goNextAux_false_frame : ∀ fuel (j : Json),
    cursorDepth j.pointer.cursor < fuel →
    (Json.goNextAux fuel j).1 = false →
    (Json.goNextAux fuel j).2 = { j with pointer := ⟨j.pointer.tokens, none⟩ } := by
  intro fuel
  induction fuel with
  | zero => intro j h; omega
  | succ fuel ih =>
    intro j hd hf
    rw [Json.goNextAux] at hf ⊢
    cases hs : j.nextSibling with
    | some s => rw [hs] at hf; simp at hf
    | none =>
      rw [hs] at hf
      by_cases ha : j.pointer.isAtStart
      · simp only [ha, if_true] at hf ⊢
        have hc : j.pointer.cursor = none := (isAtStart_iff _).mp ha
        have hp : j.pointer = ⟨j.pointer.tokens, none⟩ := by
          cases hpp : j.pointer with
          | mk t c => simp only at hc ⊢; rw [hpp] at hc; simp at hc; simp [hc]
        exact congrArg (fun p => { j with pointer := p }) hp
      · simp only [ha, Bool.false_eq_true, if_false] at hf ⊢
        have hc : ∃ c, j.pointer.cursor = some c := by
          cases hcc : j.pointer.cursor with
          | none => exact absurd ((isAtStart_iff _).mpr hcc) ha
          | some c => exact ⟨c, rfl⟩
        obtain ⟨c, hc⟩ := hc
        have hdj : cursorDepth j.pointer.cursor = c + 1 := by simp [cursorDepth, hc]
        have hr : cursorDepth (Pointer.rewind j.pointer).cursor = c := cursorDepth_rewind _ _ hc
        have hlt : cursorDepth ({ j with pointer := j.pointer.rewind } : Json).pointer.cursor < fuel := by
          show cursorDepth (Pointer.rewind j.pointer).cursor < fuel
          rw [hr]; omega
        have := ih { j with pointer := j.pointer.rewind } hlt hf
        rw [this]
        have ht : (Pointer.rewind j.pointer).tokens = j.pointer.tokens := rewind_tokens _
        show ({ j with pointer := ⟨(Pointer.rewind j.pointer).tokens, none⟩ } : Json) = _
        rw [ht]

/-- C1, amended, `go_prev` half. -/
theorem goPrevAux_false_frame : ∀ fuel (j : Json),
    cursorDepth j.pointer.cursor < fuel →
    (Json.goPrevAux fuel j).1 = false →
    (Json.goPrevAux fuel j).2 = { j with pointer := ⟨j.pointer.tokens, none⟩ } := by
  intro fuel
  induction fuel with
  | zero => intro j h; omega
  | succ fuel ih =>
    intro j hd hf
    rw [Json.goPrevAux] at hf ⊢
    cases hs : j.prevSibling with
    | some s => rw [hs] at hf; simp at hf
    | none =>
      rw [hs] at hf
      by_cases ha : j.pointer.isAtStart
      · simp only [ha, if_true] at hf ⊢
        have hc : j.pointer.cursor = none := (isAtStart_iff _).mp ha
        have hp : j.pointer = ⟨j.pointer.tokens, none⟩ := by
          cases hpp : j.pointer with
          | mk t c => simp only at hc ⊢; rw [hpp] at hc; simp at hc; simp [hc]
        exact congrArg (fun p => { j with pointer := p }) hp
      · simp only [ha, Bool.false_eq_true, if_false] at hf ⊢
        have hc : ∃ c, j.pointer.cursor = some c := by
          cases hcc : j.pointer.cursor with
          | none => exact absurd ((isAtStart_iff _).mpr hcc) ha
          | some c => exact ⟨c, rfl⟩
        obtain ⟨c, hc⟩ := hc
        have hdj : cursorDepth j.pointer.cursor = c + 1 := by simp [cursorDepth, hc]
        have hr : cursorDepth (Pointer.rewind j.pointer).cursor = c := cursorDepth_rewind _ _ hc
        have hlt : cursorDepth ({ j with pointer := j.pointer.rewind } : Json).pointer.cursor < fuel := by
          show cursorDepth (Pointer.rewind j.pointer).cursor < fuel
          rw [hr]; omega
        have := ih { j with pointer := j.pointer.rewind } hlt hf
        rw [this]
        have ht : (Pointer.rewind j.pointer).tokens = j.pointer.tokens := rewind_tokens _
        show ({ j with pointer := ⟨(Pointer.rewind j.pointer).tokens, none⟩ } : Json) = _
        rw [ht]

/-- C1, amended: `go_prev`/`go_next` ascend and retry at ancestors when
the current node has no sibling in the requested direction; they return
`false` only when no ancestor level yields one, and a `false` return
leaves the document with the cursor rewound to the root — the active path
is then empty, while the remembered token sequence and all other document
state are exactly as before the call. -/
theorem c1_nav_false_frame (j : Json) :
    ((Json.goNext j).1 = false →
      (Json.goNext j).2 = { j with pointer := ⟨j.pointer.tokens, none⟩ }) ∧
    ((Json.goPrev j).1 = false →
      (Json.goPrev j).2 = { j with pointer := ⟨j.pointer.tokens, none⟩ }) :=
  ⟨goNextAux_false_frame _ j (by omega), goPrevAux_false_frame _ j (by omega)⟩

/-- Witness for `c1_nav_false_frame` at a concrete document: on
`{"a": 0}` at path `a`, `go_prev` returns `false` and the theorem yields
the rewound state. -/
theorem c1_witness :
    (Json.goPrev ((Json.fromValue docPrim).goIn.2)).1 = false ∧
    (Json.goPrev ((Json.fromValue docPrim).goIn.2)).2 =
      { (Json.fromValue docPrim).goIn.2 with
        pointer := ⟨((Json.fromValue docPrim).goIn.2).pointer.tokens, none⟩ } :=
  ⟨by decide, (c1_nav_false_frame ((Json.fromValue docPrim).goIn.2)).2 (by decide)⟩

/-! ## Claim C5: cursor memory and sibling amnesia -/

/-- The document state at `a/1/y` in `{"a": [0, {"x": 1, "y": 2}]}`,
reached by `go_in`, `go_in`, `go_next`, `go_in`, `go_next`. -/
def c5AtY : Json :=
  (((((Json.fromValue docMem).goIn.2).goIn.2).goNext.2).goIn.2).goNext.2

/-- C5: ascending never discards remembered tokens (`go_out` preserves
the remembered sequence for every document), so from `a/1/y` three
`go_out`s reach the root and three `go_in`s re-enter exactly `a/1/y`;
whereas after a sibling move (`go_prev` from `a/1` to `a/0`, truncating
the remembered tail), returning to `a/1` with `go_next` and descending
selects the first child `a/1/x`, not the once-remembered `y`. -/
theorem c5_cursor_memory :
    (∀ j : Json, (Json.goOut j).2.pointer.tokens = j.pointer.tokens) ∧
    (c5AtY.tokens = [Token.key "a", Token.index 1, Token.key "y"] ∧
      (let jroot := ((c5AtY.goOut.2).goOut.2).goOut.2
       jroot.tokens = [] ∧
        jroot.pointer.tokens = [Token.key "a", Token.index 1, Token.key "y"] ∧
        (((jroot.goIn.2).goIn.2).goIn.2).tokens =
          [Token.key "a", Token.index 1, Token.key "y"])) ∧
    (let jmid := c5AtY.goOut.2
     jmid.tokens = [Token.key "a", Token.index 1] ∧
      (jmid.goPrev.2).tokens = [Token.key "a", Token.index 0] ∧
      ((jmid.goPrev.2).goNext.2).tokens = [Token.key "a", Token.index 1] ∧
      (((jmid.goPrev.2).goNext.2).goIn.2).tokens =
        [Token.key "a", Token.index 1, Token.key "x"]) := by
  refine ⟨?_, ⟨by decide, by decide, by decide, by decide⟩, by decide, by decide, by decide, by decide⟩
  intro j
  show (if j.pointer.isAtStart then (false, j)
    else (true, { j with pointer := j.pointer.rewind })).2.pointer.tokens = j.pointer.tokens
  by_cases hs : j.pointer.isAtStart
  · simp [hs]
  · simp [hs, rewind_tokens]

/-! ## Claims C2 and C10: `toggle_fold_all` -/

/-- `insertFold` membership. -/
theorem insertFold_mem (fs : List (List Token)) (q p : List Token) :
    p ∈ insertFold fs q ↔ p ∈ fs ∨ p = q := by
  unfold insertFold
  by_cases hq : q ∈ fs
  · simp only [hq, if_true]
    constructor
    · exact Or.inl
    · rintro (h | h)
      · exact h
      · exact h ▸ hq
  · simp [hq]

/-- Membership in the fold set built by the folding branch of
`toggle_fold_all`: the old folds plus every key of a composite-kind map
entry. -/
theorem mem_foldl_insert :
    ∀ (m : List (List Token × PointerData)) (fs : List (List Token)) (p : List Token),
      (p ∈ m.foldl (fun fs e => if e.2.node_type.isComposite then insertFold fs e.1 else fs) fs) ↔
      (p ∈ fs ∨ ∃ d, (p, d) ∈ m ∧ d.node_type.isComposite = true) := by
  intro m
  induction m with
  | nil => intro fs p; simp
  | cons e rest ih =>
    intro fs p
    rw [List.foldl_cons, ih]
    by_cases hcomp : e.2.node_type.isComposite
    · simp only [hcomp, if_true, insertFold_mem]
      constructor
      · rintro ((h | h) | ⟨d, hd, hc⟩)
        · exact Or.inl h
        · refine Or.inr ⟨e.2, ?_, hcomp⟩
          exact List.mem_cons.mpr (Or.inl (by rw [h]))
        · exact Or.inr ⟨d, List.mem_cons_of_mem e hd, hc⟩
      · rintro (h | ⟨d, hd, hc⟩)
        · exact Or.inl (Or.inl h)
        · rcases List.mem_cons.mp hd with h | h
          · exact Or.inl (Or.inr (congrArg Prod.fst h))
          · exact Or.inr ⟨d, h, hc⟩
    · simp only [hcomp, if_false]
      constructor
      · rintro (h | ⟨d, hd, hc⟩)
        · exact Or.inl h
        · exact Or.inr ⟨d, List.mem_cons_of_mem e hd, hc⟩
      · rintro (h | ⟨d, hd, hc⟩)
        · exact Or.inl h
        · rcases List.mem_cons.mp hd with h | h
          · exfalso
            have he : (p, d) = e := h
            rw [← he] at hcomp
            exact hcomp hc
          · exact Or.inr ⟨d, h, hc⟩

/-- The document state after `toggle_fold_all` then `go_in` on
`{"a": {"b": 0}}`: the `all_folded` flag is still set but `go_in` has
removed both composite paths from the fold set. -/
def c2State : Json := ((Json.fromValue docNested).toggleFoldAll.2).goIn.2

/-- C2, counterexample: in `c2State` the root path `[]` has a
composite-kind fold-index entry and is *not* in the fold set ("not every
composite path is folded"), yet `toggle_fold_all` empties the fold set
instead of inserting every composite path — the branch is decided by the
internal `all_folded` flag (still `true`), not by the fold set. -/
theorem c2_counterexample :
    ((lookupA c2State.pointer_map []).map (fun d => d.node_type.isComposite) = some true) ∧
    c2State.all_folded = true ∧
    ([] ∉ c2State.folds) ∧
    (Json.toggleFoldAll c2State).2.folds = [] := by
  refine ⟨by decide, by decide, by decide, by decide⟩

/-- C2, amended: `toggle_fold_all` is a two-state toggle driven by the
internal `all_folded` flag (set by the folding branch, cleared by the
clearing branch), not by inspecting the fold set: with the flag clear it
inserts every composite-kind path of the fold index into the fold set and
sets the flag; with the flag set it clears the fold set and the flag.  In
particular two calls from the initial document state (flag clear, fold
set empty) restore the empty fold set. -/
theorem c2_flag_toggle (j : Json) :
    (j.all_folded = false →
      (Json.toggleFoldAll j).2.all_folded = true ∧
      ∀ p, p ∈ (Json.toggleFoldAll j).2.folds ↔
        p ∈ j.folds ∨ ∃ d, (p, d) ∈ j.pointer_map ∧ d.node_type.isComposite = true) ∧
    (j.all_folded = true →
      (Json.toggleFoldAll j).2.all_folded = false ∧ (Json.toggleFoldAll j).2.folds = []) ∧
    (∀ v : Value,
      (((Json.fromValue v).toggleFoldAll.2).toggleFoldAll.2).folds = [] ∧
      (((Json.fromValue v).toggleFoldAll.2).toggleFoldAll.2).all_folded = false) := by
  refine ⟨?_, ?_, ?_⟩
  · intro hflag
    unfold Json.toggleFoldAll
    simp only [hflag, Bool.false_eq_true, if_false]
    refine ⟨?_, fun p => mem_foldl_insert j.pointer_map j.folds p⟩
    trivial
  · intro hflag
    unfold Json.toggleFoldAll
    simp only [hflag, if_true]
    refine ⟨?_, ?_⟩ <;> trivial
  · intro v
    have h1 : ((Json.fromValue v).toggleFoldAll.2).all_folded = true := by
      unfold Json.toggleFoldAll Json.fromValue
      simp
    unfold Json.toggleFoldAll
    simp only [h1, if_true]
    refine ⟨?_, ?_⟩ <;> trivial

/-- Witness for `c2_flag_toggle`: with the flag set (after one
`toggle_fold_all` on `{"a": {"b": 0}}`), the call clears the fold set and
the flag. -/
theorem c2_witness :
    ((Json.toggleFoldAll ((Json.fromValue docNested).toggleFoldAll.2)).2.all_folded = false ∧
      (Json.toggleFoldAll ((Json.fromValue docNested).toggleFoldAll.2)).2.folds = []) :=
  (c2_flag_toggle ((Json.fromValue docNested).toggleFoldAll.2)).2.1 (by decide)

/-- C10: `toggle_fold_all` always returns `true`, never touches the tree
value, the formatted lines or the fold index; the folding branch (flag
clear) inserts every composite-kind path into the fold set and rewinds
the pointer one level toward the root, while the clearing branch (flag
set) empties the fold set and leaves the pointer unchanged. -/
theorem c10_toggle_fold_all_frame (j : Json) :
    (Json.toggleFoldAll j).1 = true ∧
    (Json.toggleFoldAll j).2.value = j.value ∧
    (Json.toggleFoldAll j).2.formatted = j.formatted ∧
    (Json.toggleFoldAll j).2.pointer_map = j.pointer_map ∧
    (j.all_folded = false →
      (Json.toggleFoldAll j).2.pointer = j.pointer.rewind ∧
      ∀ p, p ∈ (Json.toggleFoldAll j).2.folds ↔
        p ∈ j.folds ∨ ∃ d, (p, d) ∈ j.pointer_map ∧ d.node_type.isComposite = true) ∧
    (j.all_folded = true →
      (Json.toggleFoldAll j).2.pointer = j.pointer ∧ (Json.toggleFoldAll j).2.folds = []) := by
  by_cases hflag : j.all_folded = true
  · unfold Json.toggleFoldAll
    simp only [hflag, if_true]
    refine ⟨?_, ?_, ?_, ?_, ?_, ?_⟩ <;> first
      | trivial
      | (intro h; rw [hflag] at h; cases h)
      | (intro _; refine ⟨?_, ?_⟩ <;> trivial)
  · have hflag' : j.all_folded = false := by
      cases hff : j.all_folded
      · rfl
      · exact absurd hff hflag
    unfold Json.toggleFoldAll
    simp only [hflag', Bool.false_eq_true, if_false]
    refine ⟨?_, ?_, ?_, ?_, fun _ => ⟨?_, fun p => mem_foldl_insert j.pointer_map j.folds p⟩,
      fun h => ?_⟩ <;> first
      | trivial
      | (rw [hflag'] at h; cases h)

/-- Witness for `c10_toggle_fold_all_frame` on the initial state of
`{"a": {"b": 0}}` (flag clear): the pointer is rewound and the composite
path `["a"]` lands in the fold set. -/
theorem c10_witness :
    (Json.toggleFoldAll (Json.fromValue docNested)).2.pointer =
      (Json.fromValue docNested).pointer.rewind ∧
    ([Token.key "a"] ∈ (Json.toggleFoldAll (Json.fromValue docNested)).2.folds ↔
      [Token.key "a"] ∈ (Json.fromValue docNested).folds ∨
      ∃ d, ([Token.key "a"], d) ∈ (Json.fromValue docNested).pointer_map ∧
        d.node_type.isComposite = true) :=
  ⟨((c10_toggle_fold_all_frame (Json.fromValue docNested)).2.2.2.2.1 (by decide)).1,
    ((c10_toggle_fold_all_frame (Json.fromValue docNested)).2.2.2.2.1 (by decide)).2 [Token.key "a"]⟩

/-! ## Claim C3: string and key rendering -/

/-- `modLast` keeps the length. -/
theorem modLast_length (f : StyledLine → StyledLine) :
    ∀ ls : List StyledLine, (modLast f ls).length = ls.length := by
  intro ls
  induction ls with
  | nil => rfl
  | cons l rest ih =>
    cases rest with
    | nil => rfl
    | cons l' rest' => simpa [modLast] using ih

/-- `getLast?` skips a head in front of a non-empty tail. -/
theorem getLast?_cons_of_ne {α : Type} (l : α) (xs : List α) (h : xs ≠ []) :
    (l :: xs).getLast? = xs.getLast? := by
  cases xs with
  | nil => exact absurd rfl h
  | cons a b => exact List.getLast?_cons_cons

/-- `modLast` maps the last element. -/
theorem modLast_getLast? (f : StyledLine → StyledLine) :
    ∀ ls : List StyledLine, ls ≠ [] → (modLast f ls).getLast? = ls.getLast?.map f := by
  intro ls
  induction ls with
  | nil => intro h; exact absurd rfl h
  | cons l rest ih =>
    intro _
    cases rest with
    | nil => rfl
    | cons l' rest' =>
      have hne : modLast f (l' :: rest') ≠ [] := by
        intro hh
        have := modLast_length f (l' :: rest')
        rw [hh] at this
        simp at this
      show (l :: modLast f (l' :: rest')).getLast? = _
      rw [getLast?_cons_of_ne _ _ hne, ih (by simp), List.getLast?_cons_cons]

/-- Appending fragments to the last line: the length is kept and the last
line's fragment list is extended. -/
theorem pushLastLine_facts (els : List StyledString) (st : FmtState) (h : st.lines ≠ []) :
    (pushLastLine els st).lines.length = st.lines.length ∧
    (pushLastLine els st).lines.getLast?.map StyledLine.elements =
      st.lines.getLast?.map (fun l => l.elements ++ els) := by
  unfold pushLastLine
  refine ⟨modLast_length _ _, ?_⟩
  show (modLast _ st.lines).getLast?.map StyledLine.elements = _
  rw [modLast_getLast? _ _ h]
  cases st.lines.getLast? <;> rfl

/-- C3, counterexample: formatting the string value `a"b` emits the raw
text between quote punctuation fragments — no JSON string-escaping is
applied to it (escaping would turn it into `a\"b`). -/
theorem c3_counterexample :
    (fmt (Value.vstr "a\"b")).lines =
      [⟨0, 0, [], [formatPunct "\"", ⟨"a\"b", StyleClass.string⟩, formatPunct "\""]⟩] ∧
    jsonEscape "a\"b" = "a\\\"b" ∧
    ("a\"b" : String) ≠ jsonEscape "a\"b" := by
  refine ⟨by decide, by decide, by decide⟩

/-- C3, amended: the Formatter renders each string primitive as exactly
one line whose content is the *raw* text (no JSON string-escaping)
surrounded by double-quote punctuation fragments, and renders each object
key as a quote fragment, the raw key text, a quote fragment and a `": "`
punctuation fragment prefixed onto the first line of the child's
rendering: a root string formats to exactly one such line, and on any
state that already has a line, `format_primitive` on a string adds no
line and appends exactly the quoted raw fragments to the current line. -/
theorem c3_string_render_raw :
    (∀ k : String, formatKeyFrags k =
      [formatPunct "\"", ⟨k, StyleClass.string⟩, formatPunct "\"", formatPunct ": "]) ∧
    (∀ s : String, (fmt (Value.vstr s)).lines =
      [⟨0, 0, [], [formatPunct "\"", ⟨s, StyleClass.string⟩, formatPunct "\""]⟩]) ∧
    (∀ (s : String) (st : FmtState), st.lines ≠ [] →
      (formatPrimitive (Value.vstr s) st).lines.length = st.lines.length ∧
      (formatPrimitive (Value.vstr s) st).lines.getLast?.map StyledLine.elements =
        st.lines.getLast?.map (fun l =>
          l.elements ++ [formatPunct "\"", ⟨s, StyleClass.string⟩, formatPunct "\""])) := by
  refine ⟨fun k => rfl, fun s => rfl, fun s st hne => ?_⟩
  have hemp : st.lines.isEmpty = false := by
    cases hl : st.lines with
    | nil => exact absurd hl hne
    | cons a b => rfl
  have heq : formatPrimitive (Value.vstr s) st =
      pushLastLine [formatPunct "\"", ⟨s, StyleClass.string⟩, formatPunct "\""] st := by
    show extendLine _ st = _
    unfold extendLine
    rw [hemp]
    simp only [Bool.false_eq_true, if_false]
  rw [heq]
  exact pushLastLine_facts _ st hne

/-- Witness for `c3_string_render_raw` at a state with one line. -/
theorem c3_witness :
    ((formatPrimitive (Value.vstr "x")
        ⟨Value.vnull, 0, [], [⟨0, 0, [], []⟩], []⟩).lines.length =
      ([⟨0, 0, [], []⟩] : List StyledLine).length) ∧
    ((formatPrimitive (Value.vstr "x")
        ⟨Value.vnull, 0, [], [⟨0, 0, [], []⟩], []⟩).lines.getLast?.map StyledLine.elements =
      ([⟨0, 0, [], []⟩] : List StyledLine).getLast?.map (fun l =>
        l.elements ++ [formatPunct "\"", ⟨"x", StyleClass.string⟩, formatPunct "\""])) :=
  c3_string_render_raw.2.2 "x" ⟨Value.vnull, 0, [], [⟨0, 0, [], []⟩], []⟩ (by decide)

/-! ## Claim C9: selection output encodings -/

/-- The document `{"k": [1, 2, 3]}` with the array at `k` selected. -/
def c9AtK : Json := (Json.fromValue docK).goIn.2

/-- The same document with element index 1 selected. -/
def c9AtElem : Json := (c9AtK.goIn.2).goNext.2

/-- C9: a selected node with a key renders as `"<key>": <value>` (raw)
and `"<key>": <pretty value>` (pretty); a selected array element renders
as just the value with no key prefix (`2` for element index 1); but for
whole-document pretty output the `OutputValuePretty` action emits the
*compact* `value.to_string()` rendering instead of the multi-line
indented rendering its name and help entry ("Output pretty
selection/value") promise — the failing input of this code bug. -/
theorem c9_output_encodings :
    outputSelectionRaw c9AtK = some "\"k\": [1,2,3]" ∧
    outputSelectionPretty c9AtK = some "\"k\": [\n  1,\n  2,\n  3\n]" ∧
    c9AtElem.tokens = [Token.key "k", Token.index 1] ∧
    outputSelectionRaw c9AtElem = some "2" ∧
    outputValueRaw c9AtElem = some "2" ∧
    outputValuePretty (Json.fromValue docK) = some "\x7b\"k\":[1,2,3]\x7d" ∧
    prettyValue 0 docK = "\x7b\n  \"k\": [\n    1,\n    2,\n    3\n  ]\n\x7d" ∧
    outputValuePretty (Json.fromValue docK) ≠ some (prettyValue 0 docK) := by
  refine ⟨by decide, by decide, by decide, by decide, by decide, by decide, by decide, by decide⟩

/-! ## Claim C6: the search loop enumerates every occurrence -/

/-- An occurrence of a non-empty query fits inside the candidate text. -/
theorem occ_length_le (s q : List Char) (r : Nat) (hq : q ≠ [])
    (h : (s.drop r).take q.length = q) : r + q.length ≤ s.length := by
  have hlen : ((s.drop r).take q.length).length = q.length := by rw [h]
  rw [List.length_take, List.length_drop] at hlen
  have hq1 : 1 ≤ q.length := List.length_pos.mpr hq
  omega

/-- What a successful `find` means: the position is past the start, the
query occurs there, and nowhere earlier at or past the start. -/
theorem findFromAux_some (s q : List Char) :
    ∀ fuel start p, findFromAux s q fuel start = some p →
      start ≤ p ∧ p + q.length ≤ s.length ∧ (s.drop p).take q.length = q ∧
      ∀ r, start ≤ r → r < p → (s.drop r).take q.length ≠ q := by
  intro fuel
  induction fuel with
  | zero => intro start p h; exact Option.noConfusion h
  | succ fuel ih =>
    intro start p h
    rw [findFromAux] at h
    by_cases hle : start + q.length ≤ s.length
    · rw [if_pos hle] at h
      by_cases hocc : (s.drop start).take q.length = q
      · rw [if_pos hocc] at h
        injection h with hp
        subst hp
        exact ⟨Nat.le_refl _, hle, hocc, fun r h1 h2 => by omega⟩
      · rw [if_neg hocc] at h
        obtain ⟨ha, hb, hc, hd⟩ := ih (start + 1) p h
        refine ⟨by omega, hb, hc, fun r h1 h2 => ?_⟩
        rcases Nat.eq_or_lt_of_le h1 with he | hlt
        · rw [← he]; exact hocc
        · exact hd r hlt h2
    · rw [if_neg hle] at h
      exact Option.noConfusion h

/-- What a failed `find` with sufficient fuel means: no occurrence at or
past the start. -/
theorem findFromAux_none (s q : List Char) (hq : q ≠ []) :
    ∀ fuel start, s.length + 1 - start ≤ fuel →
      findFromAux s q fuel start = none →
      ∀ r, start ≤ r → (s.drop r).take q.length ≠ q := by
  intro fuel
  induction fuel with
  | zero =>
    intro start hfuel _ r hr hocc
    have := occ_length_le s q r hq hocc
    have hq1 : 1 ≤ q.length := List.length_pos.mpr hq
    omega
  | succ fuel ih =>
    intro start hfuel h r hr hocc
    rw [findFromAux] at h
    by_cases hle : start + q.length ≤ s.length
    · rw [if_pos hle] at h
      by_cases ho : (s.drop start).take q.length = q
      · rw [if_pos ho] at h; exact Option.noConfusion h
      · rw [if_neg ho] at h
        rcases Nat.eq_or_lt_of_le hr with he | hlt
        · rw [← he] at hocc; exact ho hocc
        · exact ih (start + 1) (by omega) h r (by omega) hocc
    · have := occ_length_le s q r hq hocc
      omega

/-- Splitting a range filter at its first hit. -/
theorem filter_range_cons (p1 p2 : Nat → Bool) (p n : Nat) (hpn : p < n)
    (h1 : p1 p = true) (h2 : ∀ r, r < p → p1 r = false)
    (h3 : ∀ r, p < r → p1 r = p2 r) (h4 : ∀ r, r ≤ p → p2 r = false) :
    (List.range n).filter p1 = p :: (List.range n).filter p2 := by
  induction n with
  | zero => omega
  | succ n ihn =>
    rcases Nat.lt_or_ge p n with hlt | hge
    · rw [List.range_succ, List.filter_append, List.filter_append, ihn hlt]
      simp only [List.filter_cons, List.filter_nil]
      rw [h3 n (by omega)]
      cases p2 n <;> simp
    · have hpe : p = n := by omega
      subst hpe
      rw [List.range_succ, List.filter_append, List.filter_append]
      have hl1 : (List.range p).filter p1 = [] := by
        apply List.filter_eq_nil_iff.mpr
        intro a ha
        rw [h2 a (List.mem_range.mp ha)]
        simp
      have hl2 : (List.range p).filter p2 = [] := by
        apply List.filter_eq_nil_iff.mpr
        intro a ha
        rw [h4 a (by have := List.mem_range.mp ha; omega)]
        simp
      rw [hl1, hl2]
      simp only [List.filter_cons, List.filter_nil, h1, h4 p (Nat.le_refl _)]
      simp

/-- The find-and-advance-one loop collects exactly the positions at which
the query occurs, in increasing order. -/
theorem collectAux_eq (s q : List Char) (hq : q ≠ []) :
    ∀ fuel start, s.length + 1 - start ≤ fuel →
      collectAux s q fuel start =
        (List.range s.length).filter
          (fun p => decide (start ≤ p) && decide ((s.drop p).take q.length = q)) := by
  intro fuel
  induction fuel with
  | zero =>
    intro start hfuel
    show ([] : List Nat) = _
    symm
    apply List.filter_eq_nil_iff.mpr
    intro a ha
    have hlt := List.mem_range.mp ha
    simp only [Bool.and_eq_true, decide_eq_true_eq, not_and]
    intro hsa _
    omega
  | succ fuel ih =>
    intro start hfuel
    rw [collectAux]
    cases hf : findFrom s q start with
    | none =>
      have hnone := findFromAux_none s q hq _ start (Nat.le_refl _) hf
      show ([] : List Nat) = _
      symm
      apply List.filter_eq_nil_iff.mpr
      intro a _
      simp only [Bool.and_eq_true, decide_eq_true_eq, not_and]
      intro hsa hocc
      exact hnone a hsa hocc
    | some p =>
      obtain ⟨ha, hb, hc, hd⟩ := findFromAux_some s q _ start p hf
      have hq1 : 1 ≤ q.length := List.length_pos.mpr hq
      show p :: collectAux s q fuel (p + 1) = _
      rw [ih (p + 1) (by omega)]
      symm
      apply filter_range_cons
      · omega
      · simp only [Bool.and_eq_true, decide_eq_true_eq]
        exact ⟨by simp [ha], by simp [hc]⟩
      · intro r hr
        by_cases hsr : start ≤ r
        · have := hd r hsr hr
          simp [this]
        · simp [hsr]
      · intro r hr
        have hx1 : start ≤ r := by omega
        have hx2 : p + 1 ≤ r := by omega
        simp [hx1, hx2]
      · intro r hr
        have : ¬(p + 1 ≤ r) := by omega
        simp [this]

/-- The whole search loop of one fragment equals the declarative "all
occurrence positions" list. -/
theorem collectMatches_eq_allOccs (s q : List Char) (hq : q ≠ []) :
    collectMatches s q 0 = allOccs s q := by
  unfold collectMatches allOccs
  rw [collectAux_eq s q hq _ 0 (by omega)]
  apply List.filter_congr
  intro p _
  simp

/-- Per-fragment equality of search loop and specification. -/
theorem searchFrag_eq_specFrag (lineNo idx : Nat) (text qLower : List Char) (qLen : Nat)
    (hq : qLower ≠ []) :
    searchFrag lineNo idx text qLower qLen = specFrag lineNo idx text qLower qLen := by
  simp only [searchFrag, specFrag]
  rw [collectMatches_eq_allOccs _ _ hq]

/-- `flatMap` congruence. -/
theorem flatMap_congr {α β : Type} (l : List α) (f g : α → List β)
    (h : ∀ x ∈ l, f x = g x) : l.flatMap f = l.flatMap g := by
  induction l with
  | nil => rfl
  | cons a t ih =>
    simp only [List.flatMap_cons]
    rw [h a (List.mem_cons_self a t), ih (fun x hx => h x (List.mem_cons_of_mem a hx))]

/-- The counterexample fragment: text `""a` (two quote characters then
`a`). -/
def c6Line : StyledLine := ⟨0, 0, [], [⟨"\"\"a", StyleClass.string⟩]⟩

/-- C6, counterexample: for the fragment text `""a` and query `"a`, the
claim's single-quote-stripped candidate `"a` contains the query (one
occurrence, at offset 0, recorded with the +1 leading-quote correction),
but `perform_search` — which trims *every* leading/trailing quote
(`trim_matches('"')`), leaving only `a` — finds no match at all. -/
theorem c6_counterexample :
    singleStrip ("\"\"a".data) = ['"', 'a'] ∧
    trimQuotes ("\"\"a".data) = ['a'] ∧
    allOccs (toLowerL (singleStrip "\"\"a".data)) (toLowerL "\"a".data) = [0] ∧
    (searchSpecSingleStrip [c6Line] "\"a").matchList = [⟨0, 0, 1, [1, 2]⟩] ∧
    (performSearch [c6Line] "\"a").matchList = [] ∧
    performSearch [c6Line] "\"a" ≠ searchSpecSingleStrip [c6Line] "\"a" := by
  refine ⟨by decide, by decide, by decide, by decide, by decide, by decide⟩

/-- C6, amended: `perform_search` enumerates, in document order, every
(possibly overlapping) case-insensitive occurrence of the query in each
non-punctuation, non-whitespace fragment, the candidate text taken with
*all* leading/trailing quote characters stripped (`trim_matches`), the
restart position advancing by one character per hit, and each match
records the line number, fragment index, quote-corrected start offset and
quote-corrected highlight positions — it equals the declarative
specification `searchSpec`; and searching the formatted `{"a":"aaa"}` for
`aa` yields exactly the two overlapping matches at stripped-text offsets
0 and 1 of the value fragment. -/
theorem c6_search_spec :
    (∀ (lines : List StyledLine) (query : String),
      performSearch lines query = searchSpec lines query) ∧
    (performSearch (fmt docAAA).lines "aa").matchList =
      [⟨1, 5, 0, [0, 1]⟩, ⟨1, 5, 1, [1, 2]⟩] := by
  refine ⟨?_, by decide⟩
  intro lines query
  unfold performSearch searchSpec
  by_cases hq : query = ""
  · simp [hq]
  · rw [if_neg hq, if_neg hq]
    have hqd : query.data ≠ [] := by
      intro hd
      apply hq
      cases query
      simp only at hd
      rw [hd]
    have hlow : toLowerL query.data ≠ [] := by
      unfold toLowerL
      simp [hqd]
    refine congrArg (fun m => SearchResults.mk query m none) ?_
    apply flatMap_congr
    intro line _
    unfold searchLine
    apply flatMap_congr
    intro e _
    by_cases hsk : skippedStyle e.2.cls
    · simp [hsk]
    · simp only [hsk, Bool.false_eq_true, if_false]
      exact searchFrag_eq_specFrag _ _ _ _ _ hlow

/-! ## Claims C7 and C8: fold-index machinery

`ptrAt ls i` is the path tagged on line `i`; the bounds invariant `IB`
says every fold-index entry's bounds are exactly the first and last line
tagged with its path, and paths without an entry tag no line. -/

/-- The path tagged on line `i`. -/
def ptrAt (ls : List StyledLine) (i : Nat) : Option (List Token) :=
  (ls.get? i).map StyledLine.pointer

/-- Line `i` is tagged with path `p`. -/
def taggedAt (ls : List StyledLine) (p : List Token) (i : Nat) : Prop :=
  ptrAt ls i = some p

/-- The bounds invariant of the fold index under construction. -/
def IB (st : FmtState) : Prop :=
  (st.pmap.map Prod.fst).Nodup ∧
  (∀ p d, lookupA st.pmap p = some d →
    taggedAt st.lines p d.bounds.1 ∧ taggedAt st.lines p d.bounds.2 ∧
    ∀ i, taggedAt st.lines p i → d.bounds.1 ≤ i ∧ i ≤ d.bounds.2) ∧
  (∀ p, lookupA st.pmap p = none → ∀ i, ¬taggedAt st.lines p i)

/-- A tagged index is in range. -/
theorem ptrAt_lt_length {ls : List StyledLine} {i : Nat} {w : List Token}
    (h : ptrAt ls i = some w) : i < ls.length := by
  unfold ptrAt at h
  cases hg : ls.get? i with
  | none => rw [hg] at h; cases h
  | some l => exact (List.get?_eq_some.mp hg).1

/-- `ptrAt` on an appended line. -/
theorem ptrAt_append (ls : List StyledLine) (l : StyledLine) (i : Nat) :
    ptrAt (ls ++ [l]) i =
      if i < ls.length then ptrAt ls i
      else if i = ls.length then some l.pointer else none := by
  by_cases h1 : i < ls.length
  · rw [if_pos h1]
    unfold ptrAt
    rw [List.get?_append h1]
  · rw [if_neg h1]
    by_cases h2 : i = ls.length
    · rw [if_pos h2, h2]
      unfold ptrAt
      rw [List.get?_concat_length]
      rfl
    · rw [if_neg h2]
      unfold ptrAt
      have : (ls ++ [l]).length ≤ i := by simp; omega
      rw [List.get?_eq_none.mpr this]
      rfl

/-- `modLast` with a pointer-preserving function keeps every line's
path. -/
theorem ptrAt_modLast (f : StyledLine → StyledLine) (hf : ∀ l, (f l).pointer = l.pointer) :
    ∀ (ls : List StyledLine) (i : Nat), ptrAt (modLast f ls) i = ptrAt ls i := by
  intro ls
  induction ls with
  | nil => intro i; rfl
  | cons l rest ih =>
    intro i
    cases rest with
    | nil =>
      cases i with
      | zero =>
        show (([f l] : List StyledLine).get? 0).map StyledLine.pointer = _
        simp [hf l]
        rfl
      | succ i => rfl
    | cons l' rest' =>
      cases i with
      | zero => rfl
      | succ i =>
        show ptrAt (modLast f (l' :: rest')) i = _
        exact ih i

/-- `lookupA` misses exactly the keys not in the list. -/
theorem lookupA_none_iff (m : List (List Token × PointerData)) (q : List Token) :
    lookupA m q = none ↔ q ∉ m.map Prod.fst := by
  induction m with
  | nil => simp [lookupA]
  | cons e rest ih =>
    unfold lookupA
    by_cases he : e.1 = q
    · simp [he]
    · rw [if_neg he]
      simp only [List.map_cons, List.mem_cons, ih]
      constructor
      · intro h hmem
        rcases hmem with h1 | h1
        · exact he h1.symm
        · exact h h1
      · intro h h1
        exact h (Or.inr h1)

/-- `lookupA` through an appended entry when the key was absent. -/
theorem lookupA_append_of_none (m : List (List Token × PointerData)) (k q : List Token)
    (d : PointerData) (h : lookupA m q = none) :
    lookupA (m ++ [(k, d)]) q = if k = q then some d else lookupA m q := by
  induction m with
  | nil => simp [lookupA]
  | cons e rest ih =>
    obtain ⟨k1, d1⟩ := e
    simp only [lookupA] at h ⊢
    by_cases he : k1 = q
    · rw [if_pos he] at h; cases h
    · simp only [if_neg he] at h ⊢
      exact ih h

/-- `lookupA` through an appended entry when the key was present. -/
theorem lookupA_append_of_some (m : List (List Token × PointerData)) (q : List Token)
    (d' : PointerData) (e : List Token × PointerData) (h : lookupA m q = some d') :
    lookupA (m ++ [e]) q = some d' := by
  induction m with
  | nil => cases h
  | cons e' rest ih =>
    obtain ⟨k1, d1⟩ := e'
    simp only [lookupA] at h ⊢
    by_cases he : k1 = q
    · rw [if_pos he] at h ⊢; exact h
    · rw [if_neg he] at h ⊢
      exact ih h

/-- `updateLast` rewrites only the given key's entry. -/
theorem lookupA_updateLast (m : List (List Token × PointerData)) (k q : List Token) (n : Nat) :
    lookupA (updateLast m k n) q =
      if q = k then (lookupA m q).map (fun d => { d with bounds := (d.bounds.1, n) })
      else lookupA m q := by
  induction m with
  | nil => by_cases h : q = k <;> simp [updateLast, lookupA, h]
  | cons e rest ih =>
    obtain ⟨k1, d1⟩ := e
    by_cases he : k1 = k <;> by_cases heq : k1 = q
    · have hqk : q = k := heq ▸ he
      simp [updateLast, lookupA, he, heq, hqk]
    · have hqk : ¬q = k := fun h => heq (he.trans h.symm)
      have hkq : ¬k = q := fun h => heq (he.trans h)
      simp [updateLast, lookupA, he, heq, hqk, hkq, ih]
    · have hqk : ¬q = k := fun h => he (heq.trans h)
      simp [updateLast, lookupA, he, heq, hqk]
    · simp [updateLast, lookupA, he, heq, ih]

/-- `updateLast` keeps the key list. -/
theorem map_fst_updateLast (m : List (List Token × PointerData)) (k : List Token) (n : Nat) :
    (updateLast m k n).map Prod.fst = m.map Prod.fst := by
  induction m with
  | nil => rfl
  | cons e rest ih =>
    obtain ⟨k1, d1⟩ := e
    by_cases he : k1 = k <;> simp [updateLast, he, ih]

/-- The line pushed by `newLine`. -/
def freshLine (st : FmtState) : StyledLine :=
  ⟨st.lines.length, st.depth * INDENT, st.tokens, []⟩

/-- `newLine` appends exactly one line, tagged with the current path. -/
theorem newLine_lines (st : FmtState) : (newLine st).lines = st.lines ++ [freshLine st] := by
  unfold newLine updateMap freshLine
  split <;> rfl

/-- `newLine` leaves value, depth and tokens alone. -/
theorem newLine_frame (st : FmtState) :
    (newLine st).value = st.value ∧ (newLine st).depth = st.depth ∧
    (newLine st).tokens = st.tokens := by
  unfold newLine updateMap
  split <;> exact ⟨rfl, rfl, rfl⟩

/-- `newLine`'s map when the path already has an entry. -/
theorem newLine_pmap_some (st : FmtState) (d0 : PointerData)
    (h : lookupA st.pmap st.tokens = some d0) :
    (newLine st).pmap = updateLast st.pmap st.tokens st.lines.length := by
  unfold newLine updateMap
  simp only [List.length_append, List.length_singleton, Nat.add_sub_cancel]
  have h' : lookupA st.pmap st.tokens = some d0 := h
  rw [h']

/-- `newLine`'s map when the path has no entry yet: a fresh entry with
point bounds at the new line. -/
theorem newLine_pmap_none (st : FmtState)
    (h : lookupA st.pmap st.tokens = none) :
    ∃ dnew : PointerData,
      (newLine st).pmap = st.pmap ++ [(st.tokens, dnew)] ∧
      dnew.bounds = (st.lines.length, st.lines.length) := by
  unfold newLine updateMap
  simp only [List.length_append, List.length_singleton, Nat.add_sub_cancel]
  rw [h]
  refine ⟨_, rfl, ?_⟩
  split <;> rfl

/-- Invariance of `IB` under pointer-preserving line surgery and an
unchanged map. -/
theorem IB_congr (st st' : FmtState)
    (hl : ∀ i, ptrAt st'.lines i = ptrAt st.lines i)
    (hm : st'.pmap = st.pmap) (h : IB st) : IB st' := by
  obtain ⟨h1, h2, h3⟩ := h
  refine ⟨hm ▸ h1, ?_, ?_⟩
  · intro p d hd
    rw [hm] at hd
    obtain ⟨ha, hb, hc⟩ := h2 p d hd
    exact ⟨by unfold taggedAt; rw [hl]; exact ha,
      by unfold taggedAt; rw [hl]; exact hb,
      fun i hi => hc i (by unfold taggedAt at hi ⊢; rw [hl] at hi; exact hi)⟩
  · intro p hp i hi
    rw [hm] at hp
    unfold taggedAt at hi
    rw [hl] at hi
    exact h3 p hp i hi

/-- `newLine` preserves the bounds invariant. -/
theorem newLine_IB (st : FmtState) (h : IB st) : IB (newLine st) := by
  obtain ⟨h1, h2, h3⟩ := h
  have hptr : ∀ i, ptrAt (newLine st).lines i =
      if i < st.lines.length then ptrAt st.lines i
      else if i = st.lines.length then some st.tokens else none := by
    intro i
    rw [newLine_lines st, ptrAt_append]
    rfl
  have htag : ∀ p i, taggedAt (newLine st).lines p i ↔
      ((i < st.lines.length ∧ taggedAt st.lines p i) ∨
        (i = st.lines.length ∧ p = st.tokens)) := by
    intro p i
    unfold taggedAt
    rw [hptr]
    by_cases hilt : i < st.lines.length
    · simp only [if_pos hilt]
      constructor
      · intro hh; exact Or.inl ⟨hilt, hh⟩
      · rintro (⟨_, hh⟩ | ⟨he, _⟩)
        · exact hh
        · omega
    · rw [if_neg hilt]
      by_cases hie : i = st.lines.length
      · simp only [if_pos hie]
        constructor
        · intro hh; injection hh with hh; exact Or.inr ⟨hie, hh.symm⟩
        · rintro (⟨hlt, _⟩ | ⟨_, hh⟩)
          · omega
          · rw [hh]
      · simp only [if_neg hie]
        constructor
        · intro hh; cases hh
        · rintro (⟨hlt, _⟩ | ⟨he, _⟩)
          · omega
          · exact absurd he hie
  cases hl : lookupA st.pmap st.tokens with
  | some d0 =>
    have hm := newLine_pmap_some st d0 hl
    obtain ⟨ha0, hb0, hc0⟩ := h2 st.tokens d0 hl
    have hb0lt : d0.bounds.2 < st.lines.length := ptrAt_lt_length hb0
    have ha0lt : d0.bounds.1 < st.lines.length := ptrAt_lt_length ha0
    refine ⟨?_, ?_, ?_⟩
    · rw [hm, map_fst_updateLast]; exact h1
    · intro p d hd
      rw [hm, lookupA_updateLast] at hd
      by_cases hp : p = st.tokens
      · rw [if_pos hp, hp, hl] at hd
        injection hd with hd
        subst hd
        have hdb1 : ({ d0 with bounds := (d0.bounds.1, st.lines.length) } : PointerData).bounds.1
            = d0.bounds.1 := rfl
        have hdb2 : ({ d0 with bounds := (d0.bounds.1, st.lines.length) } : PointerData).bounds.2
            = st.lines.length := rfl
        rw [hdb1, hdb2]
        refine ⟨?_, ?_, ?_⟩
        · rw [htag]; exact Or.inl ⟨ha0lt, hp ▸ ha0⟩
        · rw [htag]; exact Or.inr ⟨rfl, hp⟩
        · intro i hi
          rw [htag] at hi
          rcases hi with ⟨hlt, hti⟩ | ⟨he, _⟩
          · have := hc0 i (hp ▸ hti)
            omega
          · subst he
            have := hc0 d0.bounds.1 ha0
            omega
      · rw [if_neg hp] at hd
        obtain ⟨ha, hb, hc⟩ := h2 p d hd
        refine ⟨?_, ?_, ?_⟩
        · rw [htag]; exact Or.inl ⟨ptrAt_lt_length ha, ha⟩
        · rw [htag]; exact Or.inl ⟨ptrAt_lt_length hb, hb⟩
        · intro i hi
          rw [htag] at hi
          rcases hi with ⟨_, hti⟩ | ⟨_, he⟩
          · exact hc i hti
          · exact absurd he hp
    · intro p hp i hi
      rw [hm, lookupA_updateLast] at hp
      by_cases hpe : p = st.tokens
      · rw [if_pos hpe, hpe, hl] at hp
        cases hp
      · rw [if_neg hpe] at hp
        rw [htag] at hi
        rcases hi with ⟨_, hti⟩ | ⟨_, he⟩
        · exact h3 p hp i hti
        · exact hpe he
  | none =>
    obtain ⟨dnew, hm, hbnds⟩ := newLine_pmap_none st hl
    have hbn1 : dnew.bounds.1 = st.lines.length := by rw [hbnds]
    have hbn2 : dnew.bounds.2 = st.lines.length := by rw [hbnds]
    refine ⟨?_, ?_, ?_⟩
    · rw [hm, List.map_append]
      simp only [List.map_cons, List.map_nil]
      rw [List.nodup_append]
      refine ⟨h1, List.nodup_singleton _, ?_⟩
      intro a ha hb
      simp only [List.mem_singleton] at hb
      subst hb
      exact (lookupA_none_iff st.pmap st.tokens).mp hl ha
    · intro p d hd
      rw [hm] at hd
      by_cases hp : p = st.tokens
      · rw [lookupA_append_of_none st.pmap st.tokens p dnew (hp ▸ hl)] at hd
        rw [if_pos hp.symm] at hd
        injection hd with hd
        subst hd
        rw [hbn1, hbn2]
        refine ⟨?_, ?_, ?_⟩
        · rw [htag]; exact Or.inr ⟨rfl, hp⟩
        · rw [htag]; exact Or.inr ⟨rfl, hp⟩
        · intro i hi
          rw [htag] at hi
          rcases hi with ⟨_, hti⟩ | ⟨he, _⟩
          · exact absurd hti (h3 p (hp ▸ hl) i)
          · omega
      · cases hpl : lookupA st.pmap p with
        | some d' =>
          rw [lookupA_append_of_some st.pmap p d' (st.tokens, dnew) hpl] at hd
          injection hd with hd
          subst hd
          obtain ⟨ha, hb, hc⟩ := h2 p d' hpl
          refine ⟨?_, ?_, ?_⟩
          · rw [htag]; exact Or.inl ⟨ptrAt_lt_length ha, ha⟩
          · rw [htag]; exact Or.inl ⟨ptrAt_lt_length hb, hb⟩
          · intro i hi
            rw [htag] at hi
            rcases hi with ⟨_, hti⟩ | ⟨_, he⟩
            · exact hc i hti
            · exact absurd he hp
        | none =>
          rw [lookupA_append_of_none st.pmap st.tokens p dnew hpl] at hd
          rw [if_neg (fun hh => hp hh.symm), hpl] at hd
          cases hd
    · intro p hp i hi
      rw [hm] at hp
      cases hpl : lookupA st.pmap p with
      | some d' =>
        rw [lookupA_append_of_some st.pmap p d' (st.tokens, dnew) hpl] at hp
        cases hp
      | none =>
        rw [lookupA_append_of_none st.pmap st.tokens p dnew hpl] at hp
        by_cases hpe : st.tokens = p
        · rw [if_pos hpe] at hp; cases hp
        · rw [htag] at hi
          rcases hi with ⟨_, hti⟩ | ⟨_, he⟩
          · exact h3 p hpl i hti
          · exact hpe he.symm

/-- `pushLastLine` keeps every line's path. -/
theorem pushLastLine_ptrAt (els : List StyledString) (st : FmtState) :
    ∀ i, ptrAt (pushLastLine els st).lines i = ptrAt st.lines i :=
  ptrAt_modLast (fun l => { l with elements := l.elements ++ els }) (fun _ => rfl) st.lines

/-- `pushLastLine` keeps the line count. -/
theorem pushLastLine_length (els : List StyledString) (st : FmtState) :
    (pushLastLine els st).lines.length = st.lines.length :=
  modLast_length _ st.lines

/-- `pushLastLine` preserves the bounds invariant. -/
theorem pushLastLine_IB (els : List StyledString) (st : FmtState) (h : IB st) :
    IB (pushLastLine els st) :=
  IB_congr st _ (pushLastLine_ptrAt els st) rfl h

/-- `appendLine` is `extendLine` with a one-fragment list. -/
theorem appendLine_eq_extendLine (el : StyledString) (st : FmtState) :
    appendLine el st = extendLine [el] st := rfl

/-- `extendLine` on a state that already has lines: nothing structural
changes. -/
theorem extendLine_nonempty_facts (els : List StyledString) (st : FmtState)
    (h : st.lines ≠ []) :
    (extendLine els st).lines.length = st.lines.length ∧
    (∀ i, ptrAt (extendLine els st).lines i = ptrAt st.lines i) ∧
    (extendLine els st).value = st.value ∧
    (extendLine els st).depth = st.depth ∧
    (extendLine els st).tokens = st.tokens ∧
    (extendLine els st).pmap = st.pmap ∧
    (IB st → IB (extendLine els st)) := by
  have hemp : st.lines.isEmpty = false := by
    cases hl : st.lines with
    | nil => exact absurd hl h
    | cons a b => rfl
  have heq : extendLine els st = pushLastLine els st := by
    unfold extendLine
    rw [hemp]
    simp only [Bool.false_eq_true, if_false]
  rw [heq]
  exact ⟨pushLastLine_length els st, pushLastLine_ptrAt els st, rfl, rfl, rfl, rfl,
    pushLastLine_IB els st⟩

/-- `extendLine` on an empty state: exactly one line appears, tagged with
the current path. -/
theorem extendLine_empty_facts (els : List StyledString) (st : FmtState)
    (h : st.lines = []) :
    (extendLine els st).lines.length = 1 ∧
    ptrAt (extendLine els st).lines 0 = some st.tokens ∧
    (extendLine els st).value = st.value ∧
    (extendLine els st).depth = st.depth ∧
    (extendLine els st).tokens = st.tokens ∧
    (IB st → IB (extendLine els st)) := by
  have hemp : st.lines.isEmpty = true := by rw [h]; rfl
  have heq : extendLine els st = pushLastLine els (newLine st) := by
    unfold extendLine
    rw [hemp]
    simp only [if_true]
  have hnl : (newLine st).lines = st.lines ++ [freshLine st] := newLine_lines st
  have hfr := newLine_frame st
  rw [heq]
  refine ⟨?_, ?_, ?_, ?_, ?_, ?_⟩
  · rw [pushLastLine_length, hnl, h]
    rfl
  · rw [pushLastLine_ptrAt, hnl, h]
    rfl
  · show (newLine st).value = st.value
    exact hfr.1
  · show (newLine st).depth = st.depth
    exact hfr.2.1
  · show (newLine st).tokens = st.tokens
    exact hfr.2.2
  · intro hib
    exact pushLastLine_IB _ _ (newLine_IB st hib)

/-- `closeBracket`: one fresh line tagged with the current path, depth
down one, everything else framed. -/
theorem closeBracket_facts (sym : String) (st : FmtState) :
    (closeBracket sym st).lines.length = st.lines.length + 1 ∧
    (∀ i, i < st.lines.length → ptrAt (closeBracket sym st).lines i = ptrAt st.lines i) ∧
    ptrAt (closeBracket sym st).lines st.lines.length = some st.tokens ∧
    (∀ i, st.lines.length < i → ptrAt (closeBracket sym st).lines i = none) ∧
    (closeBracket sym st).value = st.value ∧
    (closeBracket sym st).tokens = st.tokens ∧
    (closeBracket sym st).depth = st.depth - 1 ∧
    (IB st → IB (closeBracket sym st)) := by
  have hIBd : IB st → IB ({ st with depth := st.depth - 1 } : FmtState) := fun hh => hh
  have hnl : (newLine ({ st with depth := st.depth - 1 } : FmtState)).lines =
      st.lines ++ [freshLine { st with depth := st.depth - 1 }] :=
    newLine_lines _
  have hne : (newLine ({ st with depth := st.depth - 1 } : FmtState)).lines ≠ [] := by
    rw [hnl]
    simp
  have hfr := newLine_frame ({ st with depth := st.depth - 1 } : FmtState)
  have heq : closeBracket sym st =
      pushLastLine [formatPunct sym] (newLine { st with depth := st.depth - 1 }) := by
    show appendLine (formatPunct sym) (newLine { st with depth := st.depth - 1 }) = _
    unfold appendLine
    have : (newLine ({ st with depth := st.depth - 1 } : FmtState)).lines.isEmpty = false := by
      rw [hnl]
      cases st.lines <;> rfl
    rw [this]
    simp only [Bool.false_eq_true, if_false]
  rw [heq]
  have hptr : ∀ i, ptrAt (pushLastLine [formatPunct sym]
      (newLine { st with depth := st.depth - 1 })).lines i =
      ptrAt (st.lines ++ [freshLine { st with depth := st.depth - 1 }]) i := by
    intro i
    rw [pushLastLine_ptrAt, hnl]
  refine ⟨?_, ?_, ?_, ?_, ?_, ?_, ?_, ?_⟩
  · rw [pushLastLine_length, hnl]
    simp
  · intro i hi
    rw [hptr, ptrAt_append, if_pos hi]
  · rw [hptr, ptrAt_append, if_neg (by omega), if_pos rfl]
    rfl
  · intro i hi
    rw [hptr, ptrAt_append, if_neg (by omega), if_neg (by omega)]
  · show (newLine ({ st with depth := st.depth - 1 } : FmtState)).value = st.value
    exact hfr.1
  · show (newLine ({ st with depth := st.depth - 1 } : FmtState)).tokens = st.tokens
    exact hfr.2.2
  · show (newLine ({ st with depth := st.depth - 1 } : FmtState)).depth = st.depth - 1
    exact hfr.2.1
  · intro hib
    exact pushLastLine_IB _ _ (newLine_IB _ (hIBd hib))

/-- `openBracket` on a non-empty state: only the depth moves. -/
theorem openBracket_nonempty_facts (sym : String) (st : FmtState) (h : st.lines ≠ []) :
    (openBracket sym st).lines.length = st.lines.length ∧
    (∀ i, ptrAt (openBracket sym st).lines i = ptrAt st.lines i) ∧
    (openBracket sym st).value = st.value ∧
    (openBracket sym st).depth = st.depth + 1 ∧
    (openBracket sym st).tokens = st.tokens ∧
    (IB st → IB (openBracket sym st)) := by
  obtain ⟨hl, hp, hv, hd, ht, _, hib⟩ :=
    extendLine_nonempty_facts [formatPunct sym] st h
  refine ⟨?_, ?_, ?_, ?_, ?_, ?_⟩
  · show (extendLine [formatPunct sym] st).lines.length = _
    exact hl
  · show ∀ i, ptrAt (extendLine [formatPunct sym] st).lines i = _
    exact hp
  · show (extendLine [formatPunct sym] st).value = _
    exact hv
  · show (extendLine [formatPunct sym] st).depth + 1 = _
    rw [hd]
  · show (extendLine [formatPunct sym] st).tokens = _
    exact ht
  · exact fun hh => hib hh

/-- `openBracket` on an empty state: one line appears, tagged with the
current path. -/
theorem openBracket_empty_facts (sym : String) (st : FmtState) (h : st.lines = []) :
    (openBracket sym st).lines.length = 1 ∧
    ptrAt (openBracket sym st).lines 0 = some st.tokens ∧
    (openBracket sym st).value = st.value ∧
    (openBracket sym st).depth = st.depth + 1 ∧
    (openBracket sym st).tokens = st.tokens ∧
    (IB st → IB (openBracket sym st)) := by
  obtain ⟨hl, hp, hv, hd, ht, hib⟩ := extendLine_empty_facts [formatPunct sym] st h
  refine ⟨?_, ?_, ?_, ?_, ?_, ?_⟩
  · show (extendLine [formatPunct sym] st).lines.length = _
    exact hl
  · show ptrAt (extendLine [formatPunct sym] st).lines 0 = _
    exact hp
  · show (extendLine [formatPunct sym] st).value = _
    exact hv
  · show (extendLine [formatPunct sym] st).depth + 1 = _
    rw [hd]
  · show (extendLine [formatPunct sym] st).tokens = _
    exact ht
  · exact fun hh => hib hh

/-! ### Path extension order and document well-formedness

`tokExt p q` says the path `q` lives in the subtree of `p` (`p` is a
prefix of `q`).  `vWF` is the well-formedness serde_json guarantees of
any parsed value: object member keys are distinct (serde's `Map` cannot
hold duplicates). -/

/-- `q` extends `p`. -/
def tokExt (p q : List Token) : Prop := ∃ r, q = p ++ r

theorem tokExt_refl (p : List Token) : tokExt p p := ⟨[], by simp⟩

theorem tokExt_nil (q : List Token) : tokExt [] q := ⟨q, rfl⟩

theorem tokExt_trans {p q r : List Token} (h1 : tokExt p q) (h2 : tokExt q r) :
    tokExt p r := by
  obtain ⟨a, ha⟩ := h1
  obtain ⟨b, hb⟩ := h2
  exact ⟨a ++ b, by rw [hb, ha, List.append_assoc]⟩

theorem tokExt_snoc (w : List Token) (t : Token) : tokExt w (w ++ [t]) := ⟨[t], rfl⟩

theorem tokExt_length {p q : List Token} (h : tokExt p q) : p.length ≤ q.length := by
  obtain ⟨r, hr⟩ := h
  rw [hr, List.length_append]
  omega

theorem tokExt_of_snoc {w : List Token} {t : Token} {q : List Token}
    (h : tokExt (w ++ [t]) q) : tokExt w q :=
  tokExt_trans (tokExt_snoc w t) h

theorem tokExt_ne_base {w : List Token} {t : Token} {q : List Token}
    (h : tokExt (w ++ [t]) q) : q ≠ w := by
  intro he
  have := tokExt_length h
  rw [he, List.length_append] at this
  simp at this

theorem tokExt_antisymm {p q : List Token} (h1 : tokExt p q) (h2 : tokExt q p) :
    p = q := by
  have hl2 := tokExt_length h2
  obtain ⟨a, ha⟩ := h1
  have ha0 : a.length = 0 := by
    rw [ha, List.length_append] at hl2
    omega
  rw [ha, List.length_eq_zero.mp ha0, List.append_nil]

theorem tokExt_decomp {w q : List Token} (h : tokExt w q) (hne : w ≠ q) :
    ∃ t r, q = (w ++ [t]) ++ r := by
  obtain ⟨r, hr⟩ := h
  cases r with
  | nil =>
    rw [List.append_nil] at hr
    exact absurd hr.symm hne
  | cons t r' =>
    refine ⟨t, r', ?_⟩
    rw [hr, List.append_assoc]
    rfl

theorem tokExt_sib {w : List Token} {t t' : Token} {q : List Token}
    (h1 : tokExt (w ++ [t]) q) (h2 : tokExt (w ++ [t']) q) : t = t' := by
  obtain ⟨r1, hr1⟩ := h1
  obtain ⟨r2, hr2⟩ := h2
  rw [hr1] at hr2
  rw [List.append_assoc, List.append_assoc] at hr2
  have := List.append_cancel_left hr2
  injection this

/-- Between `w` and `w ++ [t]` there is no path: a strict extension of
`w` that `q` extends, where `q` also extends `w ++ [t]`, goes through
`w ++ [t]`. -/
theorem tokExt_through {w p q : List Token} {t : Token}
    (hwp : tokExt w p) (hne : w ≠ p) (hpq : tokExt p q)
    (htq : tokExt (w ++ [t]) q) : tokExt (w ++ [t]) p := by
  obtain ⟨t', r, hr⟩ := tokExt_decomp hwp hne
  have hext : tokExt (w ++ [t']) p := ⟨r, hr⟩
  have : t' = t := tokExt_sib (tokExt_trans hext hpq) htq
  rw [this] at hext
  exact hext

mutual

/-- The shape serde_json guarantees for parsed documents: object keys
are pairwise distinct, recursively. -/
def vWF : Value → Bool
  | .vobj fs => decide (Fields.keys fs).Nodup && fsWF fs
  | .varr es => esWF es
  | .vstr _ => true
  | .vnum _ => true
  | .vbool _ => true
  | .vnull => true

def fsWF : Fields → Bool
  | .fnil => true
  | .fcons _ v rest => vWF v && fsWF rest

def esWF : Elems → Bool
  | .enil => true
  | .econs v rest => vWF v && esWF rest

end

/-! ### Pre/postconditions of the formatter traversal

`FPre`/`FPost` describe one `format_value` call: on entry the last line
is the node's freshly opened line, tagged with the current path, and no
other line is tagged inside the node's subtree; on exit the node's
region consists of the lines from that line on, every region line's path
extends the node's path, the region's first and last lines are the only
ones tagged with the node's path itself, and every strict-subtree path
tagged in the region is sandwiched between two lines tagged with its
parent-side prefix (the nesting needed for the fold-index claim).
`LPre`/`LPost` are the corresponding loop invariants of
`format_object`/`format_array`, parameterised by the parent path `w` and
the member tokens already consumed (`used`). -/

def FPre (st : FmtState) : Prop :=
  IB st ∧ st.lines ≠ [] ∧
  ptrAt st.lines (st.lines.length - 1) = some st.tokens ∧
  (∀ i q, ptrAt st.lines i = some q → tokExt st.tokens q →
    q = st.tokens ∧ i + 1 = st.lines.length)

def FPost (st st' : FmtState) : Prop :=
  IB st' ∧
  st'.value = st.value ∧ st'.depth = st.depth ∧ st'.tokens = st.tokens ∧
  st.lines.length ≤ st'.lines.length ∧ st'.lines ≠ [] ∧
  (∀ i, i < st.lines.length → ptrAt st'.lines i = ptrAt st.lines i) ∧
  ptrAt st'.lines (st'.lines.length - 1) = some st.tokens ∧
  (∀ i q, st.lines.length ≤ i → ptrAt st'.lines i = some q → tokExt st.tokens q) ∧
  (∀ i q, ptrAt st'.lines i = some q → tokExt st.tokens q →
     (q = st.tokens ∧ (i + 1 = st.lines.length ∨ i + 1 = st'.lines.length)) ∨
     (q ≠ st.tokens ∧ st.lines.length ≤ i ∧ i + 1 < st'.lines.length)) ∧
  (∀ p q i, ptrAt st'.lines i = some q → st.lines.length ≤ i →
     tokExt st.tokens p → tokExt p q → p ≠ q →
     (∃ a, a < i ∧ st.lines.length - 1 ≤ a ∧ ptrAt st'.lines a = some p) ∧
     (∃ b, i < b ∧ b < st'.lines.length ∧ ptrAt st'.lines b = some p))

def LPre (w used : List Token) (idx : Nat) (st : FmtState) : Prop :=
  IB st ∧ st.lines ≠ [] ∧
  (idx = 0 → st.tokens = w) ∧
  (idx ≠ 0 → ∃ t0, st.tokens = w ++ [t0]) ∧
  (∀ i q, ptrAt st.lines i = some q → tokExt w q → q ≠ w →
    ∃ t', t' ∈ used ∧ tokExt (w ++ [t']) q)

def LPost (w : List Token) (st st2 : FmtState) : Prop :=
  IB st2 ∧ st2.value = st.value ∧ st2.depth = st.depth ∧
  st.lines.length ≤ st2.lines.length ∧ st2.lines ≠ [] ∧
  (∀ i, i < st.lines.length → ptrAt st2.lines i = ptrAt st.lines i) ∧
  (∀ i q, st.lines.length ≤ i → ptrAt st2.lines i = some q → tokExt w q ∧ q ≠ w) ∧
  (∀ p q i, st.lines.length ≤ i → ptrAt st2.lines i = some q →
     tokExt w p → w ≠ p → tokExt p q → p ≠ q →
     (∃ a, a < i ∧ st.lines.length ≤ a ∧ ptrAt st2.lines a = some p) ∧
     (∃ b, i < b ∧ b < st2.lines.length ∧ ptrAt st2.lines b = some p))

/-- The state after one loop iteration's token update and fresh line
(plus, for objects, the key fragments): one more line, tagged with the
member's path, old paths intact. -/
def StageC (w : List Token) (t : Token) (st stC : FmtState) : Prop :=
  IB stC ∧ stC.value = st.value ∧ stC.depth = st.depth ∧ stC.tokens = w ++ [t] ∧
  stC.lines.length = st.lines.length + 1 ∧
  (∀ i, i < st.lines.length → ptrAt stC.lines i = ptrAt st.lines i) ∧
  ptrAt stC.lines st.lines.length = some (w ++ [t])

/-- What one full loop iteration leaves behind, measured from the state
at the iteration's start. -/
def IterFacts (w : List Token) (t : Token) (st stE : FmtState) : Prop :=
  IB stE ∧ stE.value = st.value ∧ stE.depth = st.depth ∧ stE.tokens = w ++ [t] ∧
  st.lines.length < stE.lines.length ∧
  (∀ i, i < st.lines.length → ptrAt stE.lines i = ptrAt st.lines i) ∧
  (∀ i q, st.lines.length ≤ i → ptrAt stE.lines i = some q → tokExt (w ++ [t]) q) ∧
  (∀ p q i, st.lines.length ≤ i → ptrAt stE.lines i = some q →
     tokExt w p → w ≠ p → tokExt p q → p ≠ q →
     (∃ a, a < i ∧ st.lines.length ≤ a ∧ ptrAt stE.lines a = some p) ∧
     (∃ b, i < b ∧ b < stE.lines.length ∧ ptrAt stE.lines b = some p))

/-- `IB` only looks at the lines and the map. -/
theorem IB_of_eq (st st' : FmtState) (hl : st'.lines = st.lines)
    (hm : st'.pmap = st.pmap) (h : IB st) : IB st' :=
  IB_congr st st' (fun i => by rw [hl]) hm h

/-- The initial formatter state satisfies the bounds invariant. -/
theorem IB_init (v : Value) : IB ⟨v, 0, [], [], []⟩ := by
  refine ⟨List.nodup_nil, ?_, ?_⟩
  · intro p d hd
    cases hd
  · intro p _ i hi
    cases hi

/-- A list with a positive length is not empty. -/
theorem lines_ne_nil_of_lt {n : Nat} {ls : List StyledLine} (h : n < ls.length) :
    ls ≠ [] := by
  intro he
  rw [he] at h
  cases h

theorem pushToken_facts (t : Token) (st : FmtState) :
    (pushToken t st).lines = st.lines ∧ (pushToken t st).pmap = st.pmap ∧
    (pushToken t st).value = st.value ∧ (pushToken t st).depth = st.depth ∧
    (pushToken t st).tokens = st.tokens ++ [t] :=
  ⟨rfl, rfl, rfl, rfl, rfl⟩

theorem setToken_facts (t t0 : Token) (w : List Token) (st : FmtState)
    (h : st.tokens = w ++ [t0]) :
    (setToken t st).lines = st.lines ∧ (setToken t st).pmap = st.pmap ∧
    (setToken t st).value = st.value ∧ (setToken t st).depth = st.depth ∧
    (setToken t st).tokens = w ++ [t] := by
  have hemp : st.tokens.isEmpty = false := by
    rw [h]
    cases w <;> rfl
  unfold setToken
  rw [hemp]
  simp only [Bool.false_eq_true, if_false]
  refine ⟨by trivial, by trivial, by trivial, by trivial, ?_⟩
  show st.tokens.dropLast ++ [t] = w ++ [t]
  rw [h, List.dropLast_concat]

/-- The fresh line pushed after a member's token update. -/
theorem stageC_plain (w : List Token) (t : Token) (st stA : FmtState)
    (hA : stA.lines = st.lines ∧ stA.pmap = st.pmap ∧ stA.value = st.value ∧
      stA.depth = st.depth ∧ stA.tokens = w ++ [t])
    (hIBA : IB stA) :
    StageC w t st (newLine stA) := by
  obtain ⟨hl, hm, hv, hd, ht⟩ := hA
  have hnl := newLine_lines stA
  have hfr := newLine_frame stA
  refine ⟨newLine_IB stA hIBA, ?_, ?_, ?_, ?_, ?_, ?_⟩
  · rw [hfr.1, hv]
  · rw [hfr.2.1, hd]
  · rw [hfr.2.2, ht]
  · rw [hnl, List.length_append, hl]
    rfl
  · intro i hi
    rw [hnl, ptrAt_append, hl, if_pos hi]
  · rw [hnl, ptrAt_append, hl, if_neg (lt_irrefl _), if_pos rfl]
    show some stA.tokens = some (w ++ [t])
    rw [ht]

/-- As `stageC_plain`, with the key fragments appended onto the fresh
line. -/
theorem stageC_extend (w : List Token) (t : Token) (els : List StyledString)
    (st stA : FmtState)
    (hA : stA.lines = st.lines ∧ stA.pmap = st.pmap ∧ stA.value = st.value ∧
      stA.depth = st.depth ∧ stA.tokens = w ++ [t])
    (hIBA : IB stA) :
    StageC w t st (extendLine els (newLine stA)) := by
  obtain ⟨hib, hv, hd, ht, hlen, hold, hnew⟩ := stageC_plain w t st stA hA hIBA
  have hne : (newLine stA).lines ≠ [] := by
    apply lines_ne_nil_of_lt (n := st.lines.length)
    omega
  obtain ⟨el, ep, ev, ed, et, _, eib⟩ := extendLine_nonempty_facts els (newLine stA) hne
  refine ⟨eib hib, by rw [ev, hv], by rw [ed, hd], by rw [et, ht], by rw [el, hlen], ?_, ?_⟩
  · intro i hi
    rw [ep, hold i hi]
  · rw [ep, hnew]

/-- One loop iteration, from the state at its start: the token update
and fresh line (`StageC`), the member value's rendering (`hFP`), and the
optional trailing comma (`hE`) together leave `IterFacts`. -/
theorem iterStep (w : List Token) (t : Token) (st stC stD stE : FmtState)
    (hExtOld : ∀ i q, ptrAt st.lines i = some q → ¬ tokExt (w ++ [t]) q)
    (hSC : StageC w t st stC)
    (hFP : FPre stC → FPost stC stD)
    (hE : stE = appendLine (formatPunct ",") stD ∨ stE = stD) :
    IterFacts w t st stE := by
  obtain ⟨hibC, hvC, hdC, htC, hlenC, holdC, hnewC⟩ := hSC
  have hlinesC : stC.lines ≠ [] :=
    lines_ne_nil_of_lt (n := st.lines.length) (by omega)
  have hlast : ptrAt stC.lines (stC.lines.length - 1) = some stC.tokens := by
    rw [hlenC]
    simp only [Nat.add_sub_cancel]
    rw [hnewC, htC]
  have huniq : ∀ i q, ptrAt stC.lines i = some q → tokExt stC.tokens q →
      q = stC.tokens ∧ i + 1 = stC.lines.length := by
    intro i q hq hext
    rw [htC] at hext
    by_cases hi : i < st.lines.length
    · rw [holdC i hi] at hq
      exact absurd hext (hExtOld i q hq)
    · have hiub : i < stC.lines.length := ptrAt_lt_length hq
      have hieq : i = st.lines.length := by omega
      subst hieq
      rw [hnewC] at hq
      injection hq with hq
      exact ⟨by rw [htC, ← hq], by omega⟩
  obtain ⟨hibD, hvD, hdD, htD, hlenD, hneD, holdD, hlastD, hnewD, huniqD, hsandD⟩ :=
    hFP ⟨hibC, hlinesC, hlast, huniq⟩
  have hE2 : stE.value = stD.value ∧ stE.depth = stD.depth ∧ stE.tokens = stD.tokens ∧
      stE.lines.length = stD.lines.length ∧
      (∀ i, ptrAt stE.lines i = ptrAt stD.lines i) ∧ (IB stD → IB stE) := by
    rcases hE with rfl | rfl
    · simp only [appendLine_eq_extendLine]
      obtain ⟨al, ap, av, ad, atk, _, aib⟩ :=
        extendLine_nonempty_facts [formatPunct ","] stD hneD
      exact ⟨av, ad, atk, al, ap, aib⟩
    · exact ⟨rfl, rfl, rfl, rfl, fun i => rfl, fun h => h⟩
  obtain ⟨hvE, hdE, htE, hlenE, hpE, hibE⟩ := hE2
  have hI5 : ∀ i q, st.lines.length ≤ i → ptrAt stD.lines i = some q →
      tokExt (w ++ [t]) q := by
    intro i q hile hq
    by_cases hieq : i = st.lines.length
    · subst hieq
      rw [holdD _ (by omega), hnewC] at hq
      injection hq with hq
      rw [← hq]
      exact tokExt_refl _
    · have hige : stC.lines.length ≤ i := by omega
      have hh := hnewD i q hige hq
      rw [htC] at hh
      exact hh
  refine ⟨hibE hibD, by rw [hvE, hvD, hvC], by rw [hdE, hdD, hdC],
    by rw [htE, htD, htC], by rw [hlenE]; omega, ?_, ?_, ?_⟩
  · intro i hi
    rw [hpE i, holdD i (by omega), holdC i hi]
  · intro i q hile hq
    rw [hpE i] at hq
    exact hI5 i q hile hq
  · intro p q i hile hq hwp hwnep hpq hpnq
    rw [hpE i] at hq
    have hqext : tokExt (w ++ [t]) q := hI5 i q hile hq
    have hpext : tokExt (w ++ [t]) p := tokExt_through hwp hwnep hpq hqext
    have hqne : q ≠ w ++ [t] := by
      by_cases hpt : p = w ++ [t]
      · rw [← hpt]
        exact fun h => hpnq h.symm
      · intro he
        apply hpt
        exact (tokExt_antisymm hpext (he ▸ hpq)).symm
    have hchar := huniqD i q hq (by rw [htC]; exact hqext)
    have hreg : stC.lines.length ≤ i ∧ i + 1 < stD.lines.length := by
      rcases hchar with ⟨he, _⟩ | ⟨_, h2, h3⟩
      · rw [htC] at he
        exact absurd he hqne
      · exact ⟨h2, h3⟩
    by_cases hpt : p = w ++ [t]
    · subst hpt
      refine ⟨⟨st.lines.length, by omega, le_refl _, ?_⟩,
        ⟨stD.lines.length - 1, by omega, by rw [hlenE]; omega, ?_⟩⟩
      · rw [hpE, holdD _ (by omega), hnewC]
      · rw [hpE, hlastD, htC]
    · have hsand := hsandD p q i hq (by omega) (by rw [htC]; exact hpext) hpq hpnq
      obtain ⟨⟨a, ha1, ha2, ha3⟩, ⟨b, hb1, hb2, hb3⟩⟩ := hsand
      refine ⟨⟨a, ha1, by omega, ?_⟩, ⟨b, hb1, by rw [hlenE]; omega, ?_⟩⟩
      · rw [hpE]
        exact ha3
      · rw [hpE]
        exact hb3

/-- One iteration's facts glue with the tail of the loop. -/
theorem loopGlue (w : List Token) (t : Token) (st stE st2 : FmtState)
    (hI : IterFacts w t st stE) (hTail : LPost w stE st2) :
    LPost w st st2 := by
  obtain ⟨hib, hv, hd, ht, hlen, hold, hnew, hsand⟩ := hI
  obtain ⟨tib, tv, td, tlen, tne, told, tnew, tsand⟩ := hTail
  refine ⟨tib, by rw [tv, hv], by rw [td, hd], by omega, tne, ?_, ?_, ?_⟩
  · intro i hi
    rw [told i (by omega), hold i hi]
  · intro i q hile hq
    by_cases hi2 : i < stE.lines.length
    · rw [told i hi2] at hq
      have hh := hnew i q hile hq
      exact ⟨tokExt_of_snoc hh, tokExt_ne_base hh⟩
    · exact tnew i q (by omega) hq
  · intro p q i hile hq hwp hwnep hpq hpnq
    by_cases hi2 : i < stE.lines.length
    · rw [told i hi2] at hq
      obtain ⟨⟨a, ha1, ha2, ha3⟩, ⟨b, hb1, hb2, hb3⟩⟩ :=
        hsand p q i hile hq hwp hwnep hpq hpnq
      refine ⟨⟨a, ha1, ha2, ?_⟩, ⟨b, hb1, by omega, ?_⟩⟩
      · rw [told a (by omega)]
        exact ha3
      · rw [told b hb2]
        exact hb3
    · obtain ⟨⟨a, ha1, ha2, ha3⟩, ⟨b, hb1, hb2, hb3⟩⟩ :=
        tsand p q i (by omega) hq hwp hwnep hpq hpnq
      exact ⟨⟨a, ha1, by omega, ha3⟩, ⟨b, hb1, hb2, hb3⟩⟩

/-- After the member loop and the token pop, the closing bracket line
completes the node's region: first and last region lines are tagged with
the node's path `w`, the interior is the loop's output, and the nesting
sandwich holds across the whole region. -/
theorem compositeCloseFacts (sym : String) (w : List Token) (st1 st2 st3 : FmtState)
    (hpre1 : FPre st1) (hw : st1.tokens = w)
    (hL : LPost w st1 st2)
    (h3 : st3.lines = st2.lines ∧ st3.pmap = st2.pmap ∧ st3.value = st2.value ∧
      st3.depth = st2.depth ∧ st3.tokens = w) :
    IB (closeBracket sym st3) ∧
    (closeBracket sym st3).value = st1.value ∧
    (closeBracket sym st3).tokens = w ∧
    (closeBracket sym st3).depth = st1.depth - 1 ∧
    st1.lines.length < (closeBracket sym st3).lines.length ∧
    (∀ i, i < st1.lines.length →
      ptrAt (closeBracket sym st3).lines i = ptrAt st1.lines i) ∧
    ptrAt (closeBracket sym st3).lines ((closeBracket sym st3).lines.length - 1) = some w ∧
    (∀ i q, st1.lines.length ≤ i → ptrAt (closeBracket sym st3).lines i = some q →
      tokExt w q) ∧
    (∀ i q, ptrAt (closeBracket sym st3).lines i = some q → tokExt w q →
      (q = w ∧ (i + 1 = st1.lines.length ∨ i + 1 = (closeBracket sym st3).lines.length)) ∨
      (q ≠ w ∧ st1.lines.length ≤ i ∧ i + 1 < (closeBracket sym st3).lines.length)) ∧
    (∀ p q i, ptrAt (closeBracket sym st3).lines i = some q → st1.lines.length ≤ i →
      tokExt w p → tokExt p q → p ≠ q →
      (∃ a, a < i ∧ st1.lines.length - 1 ≤ a ∧
        ptrAt (closeBracket sym st3).lines a = some p) ∧
      (∃ b, i < b ∧ b < (closeBracket sym st3).lines.length ∧
        ptrAt (closeBracket sym st3).lines b = some p)) := by
  obtain ⟨ib1, ne1, last1, uniq1⟩ := hpre1
  obtain ⟨tib2, tv2, td2, tlen2, tne2, told2, tnew2, tsand2⟩ := hL
  obtain ⟨h3l, h3m, h3v, h3d, h3t⟩ := h3
  obtain ⟨cl, cold, cnewtag, cnone, cv, ct, cd, cib⟩ := closeBracket_facts sym st3
  have hlen32 : st3.lines.length = st2.lines.length := by rw [h3l]
  have hL1pos : 0 < st1.lines.length := List.length_pos.mpr ne1
  have hlen4 : (closeBracket sym st3).lines.length = st2.lines.length + 1 := by
    rw [cl, hlen32]
  have hlift : ∀ j, j < st2.lines.length →
      ptrAt (closeBracket sym st3).lines j = ptrAt st2.lines j := by
    intro j hj
    rw [cold j (by omega), h3l]
  have hchar4 : ∀ i q, ptrAt (closeBracket sym st3).lines i = some q →
      (i < st2.lines.length ∧ ptrAt st2.lines i = some q) ∨
      (i = st2.lines.length ∧ q = w) := by
    intro i q hq
    rcases lt_trichotomy i st2.lines.length with hlt | heq | hgt
    · left
      refine ⟨hlt, ?_⟩
      rw [← hlift i hlt]
      exact hq
    · right
      refine ⟨heq, ?_⟩
      rw [heq, ← hlen32] at hq
      rw [cnewtag] at hq
      injection hq with hq
      rw [← hq, h3t]
    · exfalso
      rw [cnone i (by omega)] at hq
      cases hq
  refine ⟨cib (IB_of_eq st2 st3 h3l h3m tib2), ?_, ?_, ?_, ?_, ?_, ?_, ?_, ?_, ?_⟩
  · rw [cv, h3v, tv2]
  · rw [ct, h3t]
  · rw [cd, h3d, td2]
  · omega
  · intro i hi
    rw [hlift i (by omega), told2 i hi]
  · rw [hlen4]
    simp only [Nat.add_sub_cancel]
    rw [← hlen32, cnewtag, h3t]
  · intro i q hile hq
    rcases hchar4 i q hq with ⟨hlt, hq2⟩ | ⟨_, hqw⟩
    · exact (tnew2 i q hile hq2).1
    · rw [hqw]
      exact tokExt_refl _
  · intro i q hq hext
    rcases hchar4 i q hq with ⟨hlt, hq2⟩ | ⟨hieq, hqw⟩
    · by_cases hi1 : i < st1.lines.length
      · rw [told2 i hi1] at hq2
        obtain ⟨hqe, hie⟩ := uniq1 i q hq2 (by rw [hw]; exact hext)
        exact Or.inl ⟨by rw [hqe, hw], Or.inl hie⟩
      · obtain ⟨_, hqne⟩ := tnew2 i q (by omega) hq2
        exact Or.inr ⟨hqne, by omega, by omega⟩
    · exact Or.inl ⟨hqw, Or.inr (by omega)⟩
  · intro p q i hq hile hwp hpq hpnq
    rcases hchar4 i q hq with ⟨hlt, hq2⟩ | ⟨hieq, hqw⟩
    · by_cases hpw : p = w
      · subst hpw
        refine ⟨⟨st1.lines.length - 1, by omega, le_refl _, ?_⟩,
          ⟨st2.lines.length, by omega, by omega, ?_⟩⟩
        · rw [hlift _ (by omega), told2 _ (by omega), last1, hw]
        · rw [← hlen32, cnewtag, h3t]
      · obtain ⟨⟨a, ha1, ha2, ha3⟩, ⟨b, hb1, hb2, hb3⟩⟩ :=
          tsand2 p q i (by omega) hq2 hwp (fun h => hpw h.symm) hpq hpnq
        refine ⟨⟨a, ha1, by omega, ?_⟩, ⟨b, hb1, by omega, ?_⟩⟩
        · rw [hlift a (by omega)]
          exact ha3
        · rw [hlift b hb2]
          exact hb3
    · exfalso
      apply hpnq
      rw [hqw]
      exact (tokExt_antisymm hwp (hqw ▸ hpq)).symm

/-- `formatFieldsAux` on a member, with the `let` chain spelled out. -/
theorem formatFieldsAux_cons (k : String) (v : Value) (rest : Fields)
    (idx total : Nat) (st : FmtState) :
    formatFieldsAux (.fcons k v rest) idx total st =
      formatFieldsAux rest (idx + 1) total
        (if idx + 1 < total then
          appendLine (formatPunct ",")
            (formatValue v (extendLine (formatKeyFrags k) (newLine
              (if idx = 0 then pushToken (Token.key k) st else setToken (Token.key k) st))))
        else
          formatValue v (extendLine (formatKeyFrags k) (newLine
            (if idx = 0 then pushToken (Token.key k) st else setToken (Token.key k) st)))) :=
  rfl

/-- `formatElemsAux` on an element, with the `let` chain spelled out. -/
theorem formatElemsAux_cons (v : Value) (rest : Elems)
    (idx total : Nat) (st : FmtState) :
    formatElemsAux (.econs v rest) idx total st =
      formatElemsAux rest (idx + 1) total
        (if idx + 1 < total then
          appendLine (formatPunct ",")
            (formatValue v (newLine
              (if idx = 0 then pushToken (Token.index idx) st else setToken (Token.index idx) st)))
        else
          formatValue v (newLine
            (if idx = 0 then pushToken (Token.index idx) st else setToken (Token.index idx) st))) :=
  rfl

/-- `formatValue` on an object, with the `let` chain spelled out. -/
theorem formatValue_obj (fs : Fields) (st : FmtState) :
    formatValue (.vobj fs) st =
      closeBracket "\x7d"
        (if Fields.length fs = 0 then
          formatFieldsAux fs 0 (Fields.length fs) (openBracket "\x7b" st)
        else popToken (formatFieldsAux fs 0 (Fields.length fs) (openBracket "\x7b" st))) :=
  rfl

/-- `formatValue` on an array, with the `let` chain spelled out. -/
theorem formatValue_arr (es : Elems) (st : FmtState) :
    formatValue (.varr es) st =
      closeBracket "]"
        (if Elems.length es = 0 then
          formatElemsAux es 0 (Elems.length es) (openBracket "[" st)
        else popToken (formatElemsAux es 0 (Elems.length es) (openBracket "[" st))) :=
  rfl

/-- An object with no members has none. -/
theorem fields_len_zero {fs : Fields} (h : Fields.length fs = 0) : fs = .fnil := by
  cases fs with
  | fnil => rfl
  | fcons k v rest =>
    exfalso
    simp only [Fields.length] at h
    omega

/-- An array with no elements has none. -/
theorem elems_len_zero {es : Elems} (h : Elems.length es = 0) : es = .enil := by
  cases es with
  | enil => rfl
  | econs v rest =>
    exfalso
    simp only [Elems.length] at h
    omega

/-- A primitive's rendering only touches the current last line. -/
theorem primPost (st st' : FmtState) (hpre : FPre st)
    (hfacts : st'.lines.length = st.lines.length ∧
      (∀ i, ptrAt st'.lines i = ptrAt st.lines i) ∧
      st'.value = st.value ∧ st'.depth = st.depth ∧ st'.tokens = st.tokens ∧
      (IB st → IB st')) :
    FPost st st' := by
  obtain ⟨ib, ne, last, uniq⟩ := hpre
  obtain ⟨hl, hp, hv, hd, ht, hib⟩ := hfacts
  have hL : 0 < st.lines.length := List.length_pos.mpr ne
  refine ⟨hib ib, hv, hd, ht, by omega, lines_ne_nil_of_lt (n := 0) (by omega), ?_, ?_, ?_, ?_, ?_⟩
  · intro i _
    exact hp i
  · rw [hl, hp]
    exact last
  · intro i q hile hq
    have := ptrAt_lt_length hq
    omega
  · intro i q hq hext
    rw [hp i] at hq
    obtain ⟨h1, h2⟩ := uniq i q hq hext
    exact Or.inl ⟨h1, Or.inl h2⟩
  · intro p q i hq hile hwp hpq hpnq
    exfalso
    have := ptrAt_lt_length hq
    omega

/-- The opening bracket keeps the `format_value` precondition and sets up
the member loop's invariant (no line is tagged inside the subtree yet). -/
theorem openPre (sym : String) (st : FmtState) (hpre : FPre st) :
    FPre (openBracket sym st) ∧
    (openBracket sym st).lines.length = st.lines.length ∧
    (∀ i, ptrAt (openBracket sym st).lines i = ptrAt st.lines i) ∧
    (openBracket sym st).value = st.value ∧
    (openBracket sym st).depth = st.depth + 1 ∧
    (openBracket sym st).tokens = st.tokens ∧
    (∀ used, LPre st.tokens used 0 (openBracket sym st)) := by
  obtain ⟨ib, ne, last, uniq⟩ := hpre
  obtain ⟨oLen, oPtr, oVal, oDep, oTok, oIB⟩ := openBracket_nonempty_facts sym st ne
  have hL : 0 < st.lines.length := List.length_pos.mpr ne
  have ib1 : IB (openBracket sym st) := oIB ib
  have ne1 : (openBracket sym st).lines ≠ [] := lines_ne_nil_of_lt (n := 0) (by omega)
  have last1 : ptrAt (openBracket sym st).lines ((openBracket sym st).lines.length - 1) =
      some (openBracket sym st).tokens := by
    rw [oLen, oPtr, oTok]
    exact last
  have uniq1 : ∀ i q, ptrAt (openBracket sym st).lines i = some q →
      tokExt (openBracket sym st).tokens q →
      q = (openBracket sym st).tokens ∧ i + 1 = (openBracket sym st).lines.length := by
    intro i q hq hext
    rw [oPtr i] at hq
    rw [oTok] at hext
    obtain ⟨h1, h2⟩ := uniq i q hq hext
    exact ⟨by rw [oTok, h1], by rw [oLen]; exact h2⟩
  refine ⟨⟨ib1, ne1, last1, uniq1⟩, oLen, oPtr, oVal, oDep, oTok, ?_⟩
  intro used
  refine ⟨ib1, ne1, fun _ => oTok, fun h => absurd rfl h, ?_⟩
  intro i q hq hext hneq
  rw [oPtr i] at hq
  obtain ⟨h1, _⟩ := uniq i q hq hext
  exact absurd h1 hneq

/-- Assembling a composite node's `FPost` from the loop invariant and
the closing-bracket facts. -/
theorem closePost (sym : String) (w : List Token) (st st1 st2 st3 : FmtState)
    (hpre1 : FPre st1) (hw : st1.tokens = w) (hwst : st.tokens = w)
    (ho : st1.lines.length = st.lines.length ∧
      (∀ i, ptrAt st1.lines i = ptrAt st.lines i) ∧
      st1.value = st.value ∧ st1.depth = st.depth + 1)
    (hL : LPost w st1 st2)
    (h3 : st3.lines = st2.lines ∧ st3.pmap = st2.pmap ∧ st3.value = st2.value ∧
      st3.depth = st2.depth ∧ st3.tokens = w) :
    FPost st (closeBracket sym st3) := by
  obtain ⟨ccib, ccv, cct, ccd, cclen, ccold, cclast, ccnew, ccuniq, ccsand⟩ :=
    compositeCloseFacts sym w st1 st2 st3 hpre1 hw hL h3
  obtain ⟨hoLen, hoPtr, hoVal, hoDep⟩ := ho
  refine ⟨ccib, by rw [ccv, hoVal], by rw [ccd, hoDep]; omega, by rw [cct, hwst],
    by omega, lines_ne_nil_of_lt cclen, ?_, ?_, ?_, ?_, ?_⟩
  · intro i hi
    rw [ccold i (by omega), hoPtr i]
  · rw [cclast, hwst]
  · intro i q hile hq
    rw [hwst]
    exact ccnew i q (by omega) hq
  · intro i q hq hext
    rw [hwst] at hext
    rcases ccuniq i q hq hext with ⟨h1, h2⟩ | ⟨h1, h2, h3'⟩
    · refine Or.inl ⟨by rw [hwst]; exact h1, ?_⟩
      rcases h2 with h2 | h2
      · exact Or.inl (by omega)
      · exact Or.inr h2
    · exact Or.inr ⟨by rw [hwst]; exact h1, by omega, h3'⟩
  · intro p q i hq hile hwp hpq hpnq
    rw [hwst] at hwp
    obtain ⟨⟨a, ha1, ha2, ha3⟩, ⟨b, hb1, hb2, hb3⟩⟩ :=
      ccsand p q i hq (by omega) hwp hpq hpnq
    exact ⟨⟨a, ha1, by omega, ha3⟩, ⟨b, hb1, hb2, hb3⟩⟩

mutual

/-- `format_value` establishes `FPost`: the node's region starts at the
line that was current on entry, only its first and last lines are tagged
with the node's path, all region lines' paths extend it, the fold-index
invariant is maintained, and subtree paths are sandwiched by their
prefixes. -/
theorem fmtPost_value (v : Value) (st : FmtState)
    (hwf : vWF v = true) (hpre : FPre st) :
    FPost st (formatValue v st) := by
  cases v with
  | vobj fs =>
    simp only [vWF, Bool.and_eq_true] at hwf
    obtain ⟨hndb, hwfs⟩ := hwf
    have hnd := of_decide_eq_true hndb
    obtain ⟨hpre1, hoLen, hoPtr, hoVal, hoDep, hoTok, hLpre⟩ := openPre "\x7b" st hpre
    obtain ⟨hLpost, hid, hex⟩ :=
      fmtPost_fields fs st.tokens [] 0 (Fields.length fs) (openBracket "\x7b" st)
        hwfs hnd (fun k _ => List.not_mem_nil _) (hLpre [])
    rw [formatValue_obj]
    by_cases hfs0 : Fields.length fs = 0
    · simp only [if_pos hfs0]
      have hst2 := hid (fields_len_zero hfs0)
      exact closePost "\x7d" st.tokens st (openBracket "\x7b" st)
        (formatFieldsAux fs 0 (Fields.length fs) (openBracket "\x7b" st))
        (formatFieldsAux fs 0 (Fields.length fs) (openBracket "\x7b" st))
        hpre1 hoTok rfl ⟨hoLen, hoPtr, hoVal, hoDep⟩ hLpost
        ⟨rfl, rfl, rfl, rfl, by rw [hst2]; exact hoTok⟩
    · simp only [if_neg hfs0]
      obtain ⟨t0, ht0⟩ := hex (fun h => hfs0 (by rw [h]; rfl))
      refine closePost "\x7d" st.tokens st (openBracket "\x7b" st)
        (formatFieldsAux fs 0 (Fields.length fs) (openBracket "\x7b" st))
        (popToken (formatFieldsAux fs 0 (Fields.length fs) (openBracket "\x7b" st)))
        hpre1 hoTok rfl ⟨hoLen, hoPtr, hoVal, hoDep⟩ hLpost
        ⟨rfl, rfl, rfl, rfl, ?_⟩
      show (formatFieldsAux fs 0 (Fields.length fs) (openBracket "\x7b" st)).tokens.dropLast
        = st.tokens
      rw [ht0, List.dropLast_concat]
  | varr es =>
    simp only [vWF] at hwf
    obtain ⟨hpre1, hoLen, hoPtr, hoVal, hoDep, hoTok, hLpre⟩ := openPre "[" st hpre
    obtain ⟨hLpost, hid, hex⟩ :=
      fmtPost_elems es st.tokens 0 (Elems.length es) (openBracket "[" st)
        hwf (hLpre ((List.range 0).map Token.index))
    rw [formatValue_arr]
    by_cases hes0 : Elems.length es = 0
    · simp only [if_pos hes0]
      have hst2 := hid (elems_len_zero hes0)
      exact closePost "]" st.tokens st (openBracket "[" st)
        (formatElemsAux es 0 (Elems.length es) (openBracket "[" st))
        (formatElemsAux es 0 (Elems.length es) (openBracket "[" st))
        hpre1 hoTok rfl ⟨hoLen, hoPtr, hoVal, hoDep⟩ hLpost
        ⟨rfl, rfl, rfl, rfl, by rw [hst2]; exact hoTok⟩
    · simp only [if_neg hes0]
      obtain ⟨t0, ht0⟩ := hex (fun h => hes0 (by rw [h]; rfl))
      refine closePost "]" st.tokens st (openBracket "[" st)
        (formatElemsAux es 0 (Elems.length es) (openBracket "[" st))
        (popToken (formatElemsAux es 0 (Elems.length es) (openBracket "[" st)))
        hpre1 hoTok rfl ⟨hoLen, hoPtr, hoVal, hoDep⟩ hLpost
        ⟨rfl, rfl, rfl, rfl, ?_⟩
      show (formatElemsAux es 0 (Elems.length es) (openBracket "[" st)).tokens.dropLast
        = st.tokens
      rw [ht0, List.dropLast_concat]
  | vstr s =>
    obtain ⟨el, ep, ev, ed, et, _, eib⟩ :=
      extendLine_nonempty_facts [formatPunct "\"", ⟨s, .string⟩, formatPunct "\""] st hpre.2.1
    exact primPost st _ hpre ⟨el, ep, ev, ed, et, eib⟩
  | vnum n =>
    obtain ⟨el, ep, ev, ed, et, _, eib⟩ :=
      extendLine_nonempty_facts [(⟨n, .number⟩ : StyledString)] st hpre.2.1
    exact primPost st _ hpre ⟨el, ep, ev, ed, et, eib⟩
  | vbool b =>
    obtain ⟨el, ep, ev, ed, et, _, eib⟩ :=
      extendLine_nonempty_facts [(⟨if b then "true" else "false", .bool⟩ : StyledString)] st
        hpre.2.1
    exact primPost st _ hpre ⟨el, ep, ev, ed, et, eib⟩
  | vnull =>
    obtain ⟨el, ep, ev, ed, et, _, eib⟩ :=
      extendLine_nonempty_facts [(⟨"null", .null⟩ : StyledString)] st hpre.2.1
    exact primPost st _ hpre ⟨el, ep, ev, ed, et, eib⟩

/-- The member loop of `format_object` keeps the loop invariant. -/
theorem fmtPost_fields (fs : Fields) (w used : List Token) (idx total : Nat) (st : FmtState)
    (hwf : fsWF fs = true) (hnd : (Fields.keys fs).Nodup)
    (hdisj : ∀ k, k ∈ Fields.keys fs → Token.key k ∉ used)
    (hpre : LPre w used idx st) :
    LPost w st (formatFieldsAux fs idx total st) ∧
    (fs = .fnil → formatFieldsAux fs idx total st = st) ∧
    (fs ≠ .fnil → ∃ t0, (formatFieldsAux fs idx total st).tokens = w ++ [t0]) := by
  cases fs with
  | fnil =>
    obtain ⟨ib, ne, _, _, _⟩ := hpre
    have hred : formatFieldsAux .fnil idx total st = st := rfl
    rw [hred]
    refine ⟨⟨ib, rfl, rfl, le_refl _, ne, fun i _ => rfl, ?_, ?_⟩,
      fun _ => rfl, fun h => absurd rfl h⟩
    · intro i q hile hq
      have := ptrAt_lt_length hq
      omega
    · intro p q i hile hq _ _ _ _
      have := ptrAt_lt_length hq
      omega
  | fcons k v rest =>
    simp only [fsWF, Bool.and_eq_true] at hwf
    obtain ⟨hwfv, hwfr⟩ := hwf
    simp only [Fields.keys] at hnd hdisj
    obtain ⟨ib, ne, htok0, htokS, hLPext⟩ := hpre
    have hkused : Token.key k ∉ used := hdisj k (List.mem_cons_self k _)
    have hExtOld : ∀ i q, ptrAt st.lines i = some q →
        ¬ tokExt (w ++ [Token.key k]) q := by
      intro i q hq hext
      obtain ⟨t', ht'mem, ht'ext⟩ :=
        hLPext i q hq (tokExt_of_snoc hext) (tokExt_ne_base hext)
      rw [tokExt_sib ht'ext hext] at ht'mem
      exact hkused ht'mem
    rw [formatFieldsAux_cons]
    generalize h1 : (if idx = 0 then pushToken (Token.key k) st
      else setToken (Token.key k) st) = stA
    generalize h2 : formatValue v (extendLine (formatKeyFrags k) (newLine stA)) = stD
    generalize h3 : (if idx + 1 < total then appendLine (formatPunct ",") stD
      else stD) = stE
    have hA : stA.lines = st.lines ∧ stA.pmap = st.pmap ∧ stA.value = st.value ∧
        stA.depth = st.depth ∧ stA.tokens = w ++ [Token.key k] := by
      by_cases hidx : idx = 0
      · rw [if_pos hidx] at h1
        rw [← h1]
        obtain ⟨a1, a2, a3, a4, a5⟩ := pushToken_facts (Token.key k) st
        exact ⟨a1, a2, a3, a4, by rw [a5, htok0 hidx]⟩
      · rw [if_neg hidx] at h1
        obtain ⟨t0, ht0⟩ := htokS hidx
        rw [← h1]
        exact setToken_facts (Token.key k) t0 w st ht0
    have hSC : StageC w (Token.key k) st (extendLine (formatKeyFrags k) (newLine stA)) :=
      stageC_extend w (Token.key k) (formatKeyFrags k) st stA hA
        (IB_of_eq st stA hA.1 hA.2.1 ib)
    have hFPc : FPre (extendLine (formatKeyFrags k) (newLine stA)) →
        FPost (extendLine (formatKeyFrags k) (newLine stA)) stD := by
      intro hp
      rw [← h2]
      exact fmtPost_value v _ hwfv hp
    have hEor : stE = appendLine (formatPunct ",") stD ∨ stE = stD := by
      rw [← h3]
      by_cases hcomma : idx + 1 < total
      · exact Or.inl (if_pos hcomma)
      · exact Or.inr (if_neg hcomma)
    have hIter := iterStep w (Token.key k) st _ stD stE hExtOld hSC hFPc hEor
    have hpreE : LPre w (used ++ [Token.key k]) (idx + 1) stE := by
      obtain ⟨eib, ev, ed, et, elen, eold, enew, esand⟩ := hIter
      refine ⟨eib, lines_ne_nil_of_lt elen, fun h => absurd h (Nat.succ_ne_zero idx),
        fun _ => ⟨Token.key k, et⟩, ?_⟩
      intro i q hq hext hneq
      by_cases hi : i < st.lines.length
      · rw [eold i hi] at hq
        obtain ⟨t', hm, he⟩ := hLPext i q hq hext hneq
        exact ⟨t', List.mem_append_left _ hm, he⟩
      · exact ⟨Token.key k, List.mem_append_right _ (List.mem_singleton.mpr rfl),
          enew i q (by omega) hq⟩
    have hdisj' : ∀ k', k' ∈ Fields.keys rest → Token.key k' ∉ used ++ [Token.key k] := by
      intro k' hk' hmem
      rcases List.mem_append.mp hmem with hm | hm
      · exact hdisj k' (List.mem_cons_of_mem _ hk') hm
      · have hkk := List.mem_singleton.mp hm
        injection hkk with hkk
        rw [hkk] at hk'
        exact (List.nodup_cons.mp hnd).1 hk'
    obtain ⟨hLpostT, hidT, hexT⟩ :=
      fmtPost_fields rest w (used ++ [Token.key k]) (idx + 1) total stE hwfr
        (List.nodup_cons.mp hnd).2 hdisj' hpreE
    refine ⟨loopGlue w (Token.key k) st stE _ hIter hLpostT,
      fun h => Fields.noConfusion h, fun _ => ?_⟩
    cases rest with
    | fnil =>
      rw [hidT rfl]
      exact ⟨Token.key k, hIter.2.2.2.1⟩
    | fcons k2 v2 r2 =>
      exact hexT (fun h => Fields.noConfusion h)

/-- The element loop of `format_array` keeps the loop invariant. -/
theorem fmtPost_elems (es : Elems) (w : List Token) (idx total : Nat) (st : FmtState)
    (hwf : esWF es = true)
    (hpre : LPre w ((List.range idx).map Token.index) idx st) :
    LPost w st (formatElemsAux es idx total st) ∧
    (es = .enil → formatElemsAux es idx total st = st) ∧
    (es ≠ .enil → ∃ t0, (formatElemsAux es idx total st).tokens = w ++ [t0]) := by
  cases es with
  | enil =>
    obtain ⟨ib, ne, _, _, _⟩ := hpre
    have hred : formatElemsAux .enil idx total st = st := rfl
    rw [hred]
    refine ⟨⟨ib, rfl, rfl, le_refl _, ne, fun i _ => rfl, ?_, ?_⟩,
      fun _ => rfl, fun h => absurd rfl h⟩
    · intro i q hile hq
      have := ptrAt_lt_length hq
      omega
    · intro p q i hile hq _ _ _ _
      have := ptrAt_lt_length hq
      omega
  | econs v rest =>
    simp only [esWF, Bool.and_eq_true] at hwf
    obtain ⟨hwfv, hwfr⟩ := hwf
    obtain ⟨ib, ne, htok0, htokS, hLPext⟩ := hpre
    have hExtOld : ∀ i q, ptrAt st.lines i = some q →
        ¬ tokExt (w ++ [Token.index idx]) q := by
      intro i q hq hext
      obtain ⟨t', ht'mem, ht'ext⟩ :=
        hLPext i q hq (tokExt_of_snoc hext) (tokExt_ne_base hext)
      obtain ⟨j, hj, hjt⟩ := List.mem_map.mp ht'mem
      have hsib := tokExt_sib ht'ext hext
      rw [← hjt] at hsib
      injection hsib with hji
      exact absurd (List.mem_range.mp hj) (by omega)
    rw [formatElemsAux_cons]
    generalize h1 : (if idx = 0 then pushToken (Token.index idx) st
      else setToken (Token.index idx) st) = stA
    generalize h2 : formatValue v (newLine stA) = stD
    generalize h3 : (if idx + 1 < total then appendLine (formatPunct ",") stD
      else stD) = stE
    have hA : stA.lines = st.lines ∧ stA.pmap = st.pmap ∧ stA.value = st.value ∧
        stA.depth = st.depth ∧ stA.tokens = w ++ [Token.index idx] := by
      by_cases hidx : idx = 0
      · rw [if_pos hidx] at h1
        rw [← h1]
        obtain ⟨a1, a2, a3, a4, a5⟩ := pushToken_facts (Token.index idx) st
        exact ⟨a1, a2, a3, a4, by rw [a5, htok0 hidx]⟩
      · rw [if_neg hidx] at h1
        obtain ⟨t0, ht0⟩ := htokS hidx
        rw [← h1]
        exact setToken_facts (Token.index idx) t0 w st ht0
    have hSC : StageC w (Token.index idx) st (newLine stA) :=
      stageC_plain w (Token.index idx) st stA hA (IB_of_eq st stA hA.1 hA.2.1 ib)
    have hFPc : FPre (newLine stA) → FPost (newLine stA) stD := by
      intro hp
      rw [← h2]
      exact fmtPost_value v _ hwfv hp
    have hEor : stE = appendLine (formatPunct ",") stD ∨ stE = stD := by
      rw [← h3]
      by_cases hcomma : idx + 1 < total
      · exact Or.inl (if_pos hcomma)
      · exact Or.inr (if_neg hcomma)
    have hIter := iterStep w (Token.index idx) st _ stD stE hExtOld hSC hFPc hEor
    have hpreE : LPre w ((List.range (idx + 1)).map Token.index) (idx + 1) stE := by
      obtain ⟨eib, ev, ed, et, elen, eold, enew, esand⟩ := hIter
      refine ⟨eib, lines_ne_nil_of_lt elen, fun h => absurd h (Nat.succ_ne_zero idx),
        fun _ => ⟨Token.index idx, et⟩, ?_⟩
      intro i q hq hext hneq
      by_cases hi : i < st.lines.length
      · rw [eold i hi] at hq
        obtain ⟨t', hm, he⟩ := hLPext i q hq hext hneq
        obtain ⟨j, hj, hjt⟩ := List.mem_map.mp hm
        refine ⟨t', List.mem_map.mpr ⟨j, List.mem_range.mpr ?_, hjt⟩, he⟩
        have := List.mem_range.mp hj
        omega
      · exact ⟨Token.index idx,
          List.mem_map.mpr ⟨idx, List.mem_range.mpr (by omega), rfl⟩,
          enew i q (by omega) hq⟩
    obtain ⟨hLpostT, hidT, hexT⟩ :=
      fmtPost_elems rest w (idx + 1) total stE hwfr hpreE
    refine ⟨loopGlue w (Token.index idx) st stE _ hIter hLpostT,
      fun h => Elems.noConfusion h, fun _ => ?_⟩
    cases rest with
    | enil =>
      rw [hidT rfl]
      exact ⟨Token.index idx, hIter.2.2.2.1⟩
    | econs v2 r2 =>
      exact hexT (fun h => Elems.noConfusion h)

end

/-- The whole-document facts when the root is a primitive: one line,
tagged with the empty path. -/
theorem rootPrim (st' : FmtState)
    (h : st'.lines.length = 1 ∧ ptrAt st'.lines 0 = some [] ∧ IB st') :
    IB st' ∧ st'.lines ≠ [] ∧
    (∀ p q i, ptrAt st'.lines i = some q → tokExt p q → p ≠ q →
      (∃ a, a < i ∧ ptrAt st'.lines a = some p) ∧
      (∃ b, i < b ∧ b < st'.lines.length ∧ ptrAt st'.lines b = some p)) := by
  obtain ⟨hl, hp0, hib⟩ := h
  refine ⟨hib, lines_ne_nil_of_lt (n := 0) (by omega), ?_⟩
  intro p q i hq hpq hpnq
  exfalso
  have hi := ptrAt_lt_length hq
  have hi0 : i = 0 := by omega
  subst hi0
  rw [hp0] at hq
  have hqnil : q = [] := (Option.some.inj hq).symm
  obtain ⟨r, hr⟩ := hpq
  rw [hqnil] at hr
  exact hpnq (by rw [(List.append_eq_nil.mp hr.symm).1, hqnil])

/-- The whole-document facts when the root is composite: the invariant
holds and every strictly nested tagged path is sandwiched between two
lines tagged with any of its prefixes. -/
theorem rootComposite (sym2 : String) (st1 st2 st3 : FmtState)
    (h1 : st1.lines.length = 1 ∧ ptrAt st1.lines 0 = some [] ∧ st1.tokens = [] ∧ IB st1)
    (hL : LPost [] st1 st2)
    (h3 : st3.lines = st2.lines ∧ st3.pmap = st2.pmap ∧ st3.value = st2.value ∧
      st3.depth = st2.depth ∧ st3.tokens = []) :
    IB (closeBracket sym2 st3) ∧ (closeBracket sym2 st3).lines ≠ [] ∧
    (∀ p q i, ptrAt (closeBracket sym2 st3).lines i = some q → tokExt p q → p ≠ q →
      (∃ a, a < i ∧ ptrAt (closeBracket sym2 st3).lines a = some p) ∧
      (∃ b, i < b ∧ b < (closeBracket sym2 st3).lines.length ∧
        ptrAt (closeBracket sym2 st3).lines b = some p)) := by
  obtain ⟨hlen1, hp0, ht1, hib1⟩ := h1
  have hne1 : st1.lines ≠ [] := lines_ne_nil_of_lt (n := 0) (by omega)
  have hlast1 : ptrAt st1.lines (st1.lines.length - 1) = some st1.tokens := by
    rw [hlen1]
    show ptrAt st1.lines 0 = some st1.tokens
    rw [hp0, ht1]
  have huniq1 : ∀ i q, ptrAt st1.lines i = some q → tokExt st1.tokens q →
      q = st1.tokens ∧ i + 1 = st1.lines.length := by
    intro i q hq _
    have hi := ptrAt_lt_length hq
    rw [hlen1] at hi
    have hi0 : i = 0 := by omega
    subst hi0
    rw [hp0] at hq
    exact ⟨by rw [ht1]; exact (Option.some.inj hq).symm, by omega⟩
  obtain ⟨ccib, ccv, cct, ccd, cclen, ccold, cclast, ccnew, ccuniq, ccsand⟩ :=
    compositeCloseFacts sym2 [] st1 st2 st3 ⟨hib1, hne1, hlast1, huniq1⟩ ht1 hL h3
  refine ⟨ccib, lines_ne_nil_of_lt cclen, ?_⟩
  intro p q i hq hpq hpnq
  by_cases hi : i < st1.lines.length
  · exfalso
    have hi0 : i = 0 := by omega
    subst hi0
    rw [ccold 0 hi, hp0] at hq
    have hqnil : q = [] := (Option.some.inj hq).symm
    obtain ⟨r, hr⟩ := hpq
    rw [hqnil] at hr
    exact hpnq (by rw [(List.append_eq_nil.mp hr.symm).1, hqnil])
  · obtain ⟨⟨a, ha1, _, ha3⟩, hb⟩ :=
      ccsand p q i hq (by omega) (tokExt_nil p) hpq hpnq
    exact ⟨⟨a, ha1, ha3⟩, hb⟩

/-- `Formatter::format` on a well-formed document: the fold-index
invariant holds for the finished render, and every line tagged with a
strict extension of a path `p` lies strictly between two lines tagged
with `p` itself. -/
theorem fmt_facts (v : Value) (hwf : vWF v = true) :
    IB (fmt v) ∧ (fmt v).lines ≠ [] ∧
    (∀ p q i, ptrAt (fmt v).lines i = some q → tokExt p q → p ≠ q →
      (∃ a, a < i ∧ ptrAt (fmt v).lines a = some p) ∧
      (∃ b, i < b ∧ b < (fmt v).lines.length ∧ ptrAt (fmt v).lines b = some p)) := by
  cases v with
  | vobj fs =>
    simp only [vWF, Bool.and_eq_true] at hwf
    obtain ⟨hndb, hwfs⟩ := hwf
    have hnd := of_decide_eq_true hndb
    obtain ⟨oL, oP0, oV, oD, oT, oIB⟩ :=
      openBracket_empty_facts "\x7b" ⟨.vobj fs, 0, [], [], []⟩ rfl
    have hib1 := oIB (IB_init (.vobj fs))
    have hne1 : (openBracket "\x7b" ⟨Value.vobj fs, 0, [], [], []⟩).lines ≠ [] :=
      lines_ne_nil_of_lt (n := 0) (by omega)
    have hLpre : LPre [] [] 0 (openBracket "\x7b" ⟨.vobj fs, 0, [], [], []⟩) := by
      refine ⟨hib1, hne1, fun _ => oT, fun h => absurd rfl h, ?_⟩
      intro i q hq hext hneq
      have hi := ptrAt_lt_length hq
      rw [oL] at hi
      have hi0 : i = 0 := by omega
      subst hi0
      rw [oP0] at hq
      exact absurd (Option.some.inj hq).symm hneq
    obtain ⟨hLpost, hid, hex⟩ :=
      fmtPost_fields fs [] [] 0 (Fields.length fs) _ hwfs hnd
        (fun k _ => List.not_mem_nil _) hLpre
    unfold fmt
    rw [formatValue_obj]
    by_cases hfs0 : Fields.length fs = 0
    · simp only [if_pos hfs0]
      have hst2 := hid (fields_len_zero hfs0)
      exact rootComposite "\x7d" (openBracket "\x7b" ⟨.vobj fs, 0, [], [], []⟩) _ _
        ⟨oL, oP0, oT, hib1⟩ hLpost ⟨rfl, rfl, rfl, rfl, by rw [hst2]; exact oT⟩
    · simp only [if_neg hfs0]
      obtain ⟨t0, ht0⟩ := hex (fun h => hfs0 (by rw [h]; rfl))
      refine rootComposite "\x7d" (openBracket "\x7b" ⟨.vobj fs, 0, [], [], []⟩) _ _
        ⟨oL, oP0, oT, hib1⟩ hLpost ⟨rfl, rfl, rfl, rfl, ?_⟩
      show (formatFieldsAux fs 0 (Fields.length fs)
        (openBracket "\x7b" ⟨.vobj fs, 0, [], [], []⟩)).tokens.dropLast = []
      rw [ht0, List.dropLast_concat]
  | varr es =>
    simp only [vWF] at hwf
    obtain ⟨oL, oP0, oV, oD, oT, oIB⟩ :=
      openBracket_empty_facts "[" ⟨.varr es, 0, [], [], []⟩ rfl
    have hib1 := oIB (IB_init (.varr es))
    have hne1 : (openBracket "[" ⟨Value.varr es, 0, [], [], []⟩).lines ≠ [] :=
      lines_ne_nil_of_lt (n := 0) (by omega)
    have hLpre : LPre [] ((List.range 0).map Token.index) 0
        (openBracket "[" ⟨.varr es, 0, [], [], []⟩) := by
      refine ⟨hib1, hne1, fun _ => oT, fun h => absurd rfl h, ?_⟩
      intro i q hq hext hneq
      have hi := ptrAt_lt_length hq
      rw [oL] at hi
      have hi0 : i = 0 := by omega
      subst hi0
      rw [oP0] at hq
      exact absurd (Option.some.inj hq).symm hneq
    obtain ⟨hLpost, hid, hex⟩ :=
      fmtPost_elems es [] 0 (Elems.length es) _ hwf hLpre
    unfold fmt
    rw [formatValue_arr]
    by_cases hes0 : Elems.length es = 0
    · simp only [if_pos hes0]
      have hst2 := hid (elems_len_zero hes0)
      exact rootComposite "]" (openBracket "[" ⟨.varr es, 0, [], [], []⟩) _ _
        ⟨oL, oP0, oT, hib1⟩ hLpost ⟨rfl, rfl, rfl, rfl, by rw [hst2]; exact oT⟩
    · simp only [if_neg hes0]
      obtain ⟨t0, ht0⟩ := hex (fun h => hes0 (by rw [h]; rfl))
      refine rootComposite "]" (openBracket "[" ⟨.varr es, 0, [], [], []⟩) _ _
        ⟨oL, oP0, oT, hib1⟩ hLpost ⟨rfl, rfl, rfl, rfl, ?_⟩
      show (formatElemsAux es 0 (Elems.length es)
        (openBracket "[" ⟨.varr es, 0, [], [], []⟩)).tokens.dropLast = []
      rw [ht0, List.dropLast_concat]
  | vstr s =>
    obtain ⟨hl, hp0, _, _, _, hib⟩ :=
      extendLine_empty_facts [formatPunct "\"", ⟨s, .string⟩, formatPunct "\""]
        ⟨.vstr s, 0, [], [], []⟩ rfl
    unfold fmt
    exact rootPrim _ ⟨hl, hp0, hib (IB_init (.vstr s))⟩
  | vnum n =>
    obtain ⟨hl, hp0, _, _, _, hib⟩ :=
      extendLine_empty_facts [(⟨n, .number⟩ : StyledString)] ⟨.vnum n, 0, [], [], []⟩ rfl
    unfold fmt
    exact rootPrim _ ⟨hl, hp0, hib (IB_init (.vnum n))⟩
  | vbool b =>
    obtain ⟨hl, hp0, _, _, _, hib⟩ :=
      extendLine_empty_facts [(⟨if b then "true" else "false", .bool⟩ : StyledString)]
        ⟨.vbool b, 0, [], [], []⟩ rfl
    unfold fmt
    exact rootPrim _ ⟨hl, hp0, hib (IB_init (.vbool b))⟩
  | vnull =>
    obtain ⟨hl, hp0, _, _, _, hib⟩ :=
      extendLine_empty_facts [(⟨"null", .null⟩ : StyledString)] ⟨.vnull, 0, [], [], []⟩ rfl
    unfold fmt
    exact rootPrim _ ⟨hl, hp0, hib (IB_init Value.vnull)⟩

/-- The fold-index structural invariant, for a finished document: unique
entries; an entry exactly for each tagged path; bounds that are the
tight cover of the path's tagged lines; and strict containment of a
child entry's range in its parent's. -/
def c8Concl (v : Value) : Prop :=
  ((Json.fromValue v).pointer_map.map Prod.fst).Nodup ∧
  (∀ p, (∃ i, taggedAt (Json.fromValue v).formatted p i) ↔
    (∃ d, lookupA (Json.fromValue v).pointer_map p = some d)) ∧
  (∀ p d, lookupA (Json.fromValue v).pointer_map p = some d →
    taggedAt (Json.fromValue v).formatted p d.bounds.1 ∧
    taggedAt (Json.fromValue v).formatted p d.bounds.2 ∧
    (∀ i, taggedAt (Json.fromValue v).formatted p i →
      d.bounds.1 ≤ i ∧ i ≤ d.bounds.2)) ∧
  (∀ p t dp dc, lookupA (Json.fromValue v).pointer_map p = some dp →
    lookupA (Json.fromValue v).pointer_map (p ++ [t]) = some dc →
    dp.bounds.1 < dc.bounds.1 ∧ dc.bounds.2 < dp.bounds.2)

/-- C8: after formatting any tree value with distinct object keys, every
path tagged on at least one flattened line has exactly one fold-index
entry, that entry's inclusive bounds cover every line tagged with the
path and nothing else (both endpoints are tagged with it), and a child
entry's range is strictly contained in its parent's, so the two are
disjoint except for the parent's open/close lines. -/
theorem c8_fold_index_invariant (v : Value) (hwf : vWF v = true) : c8Concl v := by
  obtain ⟨⟨ib1, ib2, ib3⟩, hne, hsand⟩ := fmt_facts v hwf
  have hm : (Json.fromValue v).pointer_map = (fmt v).pmap := rfl
  have hf : (Json.fromValue v).formatted = (fmt v).lines := rfl
  unfold c8Concl
  rw [hm, hf]
  refine ⟨ib1, ?_, ib2, ?_⟩
  · intro p
    constructor
    · intro ⟨i, hi⟩
      cases hlook : lookupA (fmt v).pmap p with
      | none => exact absurd hi (ib3 p hlook i)
      | some d => exact ⟨d, rfl⟩
    · intro ⟨d, hd⟩
      exact ⟨d.bounds.1, (ib2 p d hd).1⟩
  · intro p t dp dc hdp hdc
    obtain ⟨hc1, hc2, hctight⟩ := ib2 (p ++ [t]) dc hdc
    obtain ⟨hp1, hp2, hptight⟩ := ib2 p dp hdp
    have hpne : p ≠ p ++ [t] := by
      intro he
      have := congrArg List.length he
      simp at this
    obtain ⟨⟨a, ha1, ha3⟩, _⟩ :=
      hsand p (p ++ [t]) dc.bounds.1 hc1 (tokExt_snoc p t) hpne
    obtain ⟨_, ⟨b, hb1, hb2, hb3⟩⟩ :=
      hsand p (p ++ [t]) dc.bounds.2 hc2 (tokExt_snoc p t) hpne
    constructor
    · have := hptight a ha3
      omega
    · have := hptight b hb3
      omega

/-- Witness for C8 at the document `{"a":{"b":0}}`. -/
theorem c8_witness : vWF docNested = true ∧ c8Concl docNested :=
  ⟨by decide, c8_fold_index_invariant docNested (by decide)⟩

/-! ### Claim C7: visible-line arithmetic under a fold -/

/-- The scan stops (returning the count) once the index reaches the
target. -/
theorem scanEnd (j : Json) (target fuel visible : Nat) :
    lineToVisibleAux j target fuel visible target = some visible := by
  cases fuel with
  | zero => simp [lineToVisibleAux]
  | succ f => simp [lineToVisibleAux]

/-- Scanning a fold-free segment `[idx, s)` counts one visible line per
absolute line. -/
theorem scanSeg (j : Json) (target s : Nat) :
    ∀ fuel idx visible, idx ≤ s → s ≤ target → s - idx ≤ fuel →
    (∀ m, idx ≤ m → m < s →
      ∃ line, j.formatted.get? m = some line ∧ line.pointer ∉ j.folds) →
    lineToVisibleAux j target fuel visible idx =
      lineToVisibleAux j target (fuel - (s - idx)) (visible + (s - idx)) s := by
  intro fuel
  induction fuel with
  | zero =>
    intro idx visible h1 h2 h3 h4
    have hsi : s = idx := by omega
    subst hsi
    simp
  | succ f ih =>
    intro idx visible h1 h2 h3 h4
    by_cases his : idx = s
    · subst his
      simp
    · have hlt : idx < s := by omega
      obtain ⟨line, hline, hnf⟩ := h4 idx (le_refl _) hlt
      have hstep : lineToVisibleAux j target (f + 1) visible idx =
          lineToVisibleAux j target f (visible + 1) (idx + 1) := by
        simp only [lineToVisibleAux, hline]
        rw [if_pos (show idx < target by omega), if_neg hnf]
      rw [hstep,
        ih (idx + 1) (visible + 1) (by omega) h2 (by omega)
          (fun m hm1 hm2 => h4 m (by omega) hm2)]
      have e1 : f - (s - (idx + 1)) = f + 1 - (s - idx) := by omega
      have e2 : visible + 1 + (s - (idx + 1)) = visible + (s - idx) := by omega
      rw [e1, e2]

/-- A folded line counts once and jumps the scan to the entry's last
bound plus one. -/
theorem scanFold (j : Json) (target fuel visible idx : Nat) (line : StyledLine)
    (d : PointerData) (hlt : idx < target) (hline : j.formatted.get? idx = some line)
    (hfold : line.pointer ∈ j.folds)
    (hd : lookupA j.pointer_map line.pointer = some d) :
    lineToVisibleAux j target (fuel + 1) visible idx =
      lineToVisibleAux j target fuel (visible + 1) (d.bounds.2 + 1) := by
  simp only [lineToVisibleAux, hline, hd]
  rw [if_pos hlt, if_pos hfold]

/-- C7: the visible-line scan counts one line per scanned absolute line
and a folded path's entry jumps the scan past its last bound while its
summary line still counts: folding a node whose subtree spans
`bounds.2 - bounds.1 + 1` lines removes exactly `bounds.2 - bounds.1`
lines from the count — the node contributes exactly one visible line —
while with no folds every line is visible. -/
theorem c7_fold_visible_count (v : Value) (p : List Token) (d : PointerData)
    (hwf : vWF v = true)
    (hd : lookupA (Json.fromValue v).pointer_map p = some d) :
    Json.visibleLineCount { Json.fromValue v with folds := [p] } =
      (Json.fromValue v).formatted.length - (d.bounds.2 - d.bounds.1) ∧
    Json.visibleLineCount (Json.fromValue v) = (Json.fromValue v).formatted.length ∧
    d.bounds.1 ≤ d.bounds.2 ∧ d.bounds.2 < (Json.fromValue v).formatted.length := by
  obtain ⟨⟨ib1, ib2, ib3⟩, hne, hsand⟩ := fmt_facts v hwf
  have hd' : lookupA (fmt v).pmap p = some d := hd
  obtain ⟨htag1, htag2, htight⟩ := ib2 p d hd'
  have hlf : d.bounds.1 ≤ d.bounds.2 := (htight d.bounds.1 htag1).2
  have hln : d.bounds.2 < (fmt v).lines.length := ptrAt_lt_length htag2
  have hexl : ∀ m, m < (fmt v).lines.length → ∃ line, (fmt v).lines.get? m = some line :=
    fun m hm2 => ⟨(fmt v).lines.get ⟨m, hm2⟩, List.get?_eq_get hm2⟩
  have hptr : ∀ m line, (fmt v).lines.get? m = some line → line.pointer = p →
      d.bounds.1 ≤ m ∧ m ≤ d.bounds.2 := by
    intro m line hml hlp
    apply htight
    show ptrAt (fmt v).lines m = some p
    unfold ptrAt
    rw [hml]
    show some line.pointer = some p
    rw [hlp]
  obtain ⟨linef, hgetf, hlpf⟩ :
      ∃ line, (fmt v).lines.get? d.bounds.1 = some line ∧ line.pointer = p := by
    have ht : ((fmt v).lines.get? d.bounds.1).map StyledLine.pointer = some p := htag1
    cases hgf : (fmt v).lines.get? d.bounds.1 with
    | none =>
      rw [hgf] at ht
      cases ht
    | some line =>
      rw [hgf] at ht
      injection ht with ht2
      exact ⟨line, rfl, ht2⟩
  have hNn : (Json.fromValue v).formatted.length = (fmt v).lines.length := rfl
  refine ⟨?_, ?_, hlf, hln⟩
  · have hseg1 : ∀ m, 0 ≤ m → m < d.bounds.1 →
        ∃ line, ({ Json.fromValue v with folds := [p] } : Json).formatted.get? m = some line ∧
          line.pointer ∉ ({ Json.fromValue v with folds := [p] } : Json).folds := by
      intro m _ hmf
      obtain ⟨line, hline⟩ := hexl m (by omega)
      refine ⟨line, hline, ?_⟩
      intro hmem
      have hmem' : line.pointer ∈ [p] := hmem
      have := hptr m line hline (List.mem_singleton.mp hmem')
      omega
    have hseg2 : ∀ m, d.bounds.2 + 1 ≤ m → m < (fmt v).lines.length →
        ∃ line, ({ Json.fromValue v with folds := [p] } : Json).formatted.get? m = some line ∧
          line.pointer ∉ ({ Json.fromValue v with folds := [p] } : Json).folds := by
      intro m hm1 hm2
      obtain ⟨line, hline⟩ := hexl m hm2
      refine ⟨line, hline, ?_⟩
      intro hmem
      have hmem' : line.pointer ∈ [p] := hmem
      have := hptr m line hline (List.mem_singleton.mp hmem')
      omega
    have A := scanSeg { Json.fromValue v with folds := [p] } (fmt v).lines.length
      d.bounds.1 (fmt v).lines.length 0 0 (by omega) (by omega) (by omega) hseg1
    have efuel : (fmt v).lines.length - (d.bounds.1 - 0) =
        ((fmt v).lines.length - d.bounds.1 - 1) + 1 := by omega
    have evis : 0 + (d.bounds.1 - 0) = d.bounds.1 := by omega
    rw [efuel, evis] at A
    have hfoldf : linef.pointer ∈ ({ Json.fromValue v with folds := [p] } : Json).folds := by
      show linef.pointer ∈ [p]
      rw [hlpf]
      exact List.mem_singleton.mpr rfl
    have hdf : lookupA ({ Json.fromValue v with folds := [p] } : Json).pointer_map
        linef.pointer = some d := by
      show lookupA (fmt v).pmap linef.pointer = some d
      rw [hlpf]
      exact hd'
    have B := scanFold { Json.fromValue v with folds := [p] } (fmt v).lines.length
      ((fmt v).lines.length - d.bounds.1 - 1) d.bounds.1 d.bounds.1 linef d
      (by omega) hgetf hfoldf hdf
    have C := scanSeg { Json.fromValue v with folds := [p] } (fmt v).lines.length
      (fmt v).lines.length ((fmt v).lines.length - d.bounds.1 - 1) (d.bounds.2 + 1)
      (d.bounds.1 + 1) (by omega) (le_refl _) (by omega) hseg2
    have D := scanEnd { Json.fromValue v with folds := [p] } (fmt v).lines.length
      (((fmt v).lines.length - d.bounds.1 - 1) - ((fmt v).lines.length - (d.bounds.2 + 1)))
      ((d.bounds.1 + 1) + ((fmt v).lines.length - (d.bounds.2 + 1)))
    have E : lineToVisibleAux { Json.fromValue v with folds := [p] }
        (fmt v).lines.length (fmt v).lines.length 0 0 =
        some ((d.bounds.1 + 1) + ((fmt v).lines.length - (d.bounds.2 + 1))) := by
      rw [A, B, C, D]
    show (lineToVisibleAux { Json.fromValue v with folds := [p] }
      (fmt v).lines.length (fmt v).lines.length 0 0).getD 0 =
      (Json.fromValue v).formatted.length - (d.bounds.2 - d.bounds.1)
    rw [E]
    simp only [Option.getD_some]
    rw [hNn]
    omega
  · have hseg0 : ∀ m, 0 ≤ m → m < (fmt v).lines.length →
        ∃ line, (Json.fromValue v).formatted.get? m = some line ∧
          line.pointer ∉ (Json.fromValue v).folds := by
      intro m _ hm2
      obtain ⟨line, hline⟩ := hexl m hm2
      refine ⟨line, hline, ?_⟩
      show line.pointer ∉ ([] : List (List Token))
      exact List.not_mem_nil _
    have A0 := scanSeg (Json.fromValue v) (fmt v).lines.length (fmt v).lines.length
      (fmt v).lines.length 0 0 (by omega) (le_refl _) (by omega) hseg0
    have e1 : (fmt v).lines.length - ((fmt v).lines.length - 0) = 0 := by omega
    have e2 : 0 + ((fmt v).lines.length - 0) = (fmt v).lines.length := by omega
    rw [e1, e2] at A0
    have D0 := scanEnd (Json.fromValue v) (fmt v).lines.length 0 (fmt v).lines.length
    show (lineToVisibleAux (Json.fromValue v) (fmt v).lines.length
      (fmt v).lines.length 0 0).getD 0 = (Json.fromValue v).formatted.length
    rw [A0, D0]
    simp only [Option.getD_some]
    rfl

/-- Witness for C7 at `{"a":{"b":0}}` with the subtree at key `a` folded:
5 lines flatten to 3 visible ones. -/
theorem c7_witness :
    vWF docNested = true ∧
    lookupA (Json.fromValue docNested).pointer_map [Token.key "a"] =
      some ⟨NodeType.object, 1, (1, 3)⟩ ∧
    (Json.visibleLineCount
        { Json.fromValue docNested with folds := [[Token.key "a"]] } =
      (Json.fromValue docNested).formatted.length - (3 - 1) ∧
    Json.visibleLineCount (Json.fromValue docNested) =
      (Json.fromValue docNested).formatted.length ∧
    (1 : Nat) ≤ 3 ∧ (3 : Nat) < (Json.fromValue docNested).formatted.length) :=
  ⟨by decide, by decide,
    c7_fold_visible_count docNested [Token.key "a"] ⟨NodeType.object, 1, (1, 3)⟩
      (by decide) (by decide)⟩
